import Mathlib

/-!
Verification development for the WooCommerce synchronization / reconciliation
subsystem of the inventory application (files `app.py`, `sync_to_wc.py`,
`wc_fields.py`, `backup_utils.py`).

The Python code is shallowly embedded: Python values occurring in raw product
records, pending edit sets and editor cells are modelled by the inductive type
`PyVal`; Python `dict`s are modelled as association lists with unique keys;
Python `float`s are modelled as exact rationals (no NaN/inf — none of the
normalization logic verified here produces or consumes them); Python functions
that can raise are modelled as `Option`-returning functions.

Naming follows the source: `get_raw_value`, `normalize_text`, ... correspond
to `get_raw_value`, `_normalize_text`, ... in the repository.
-/

namespace WcSync

/-- Scalar Python values that can live inside a one-level sub-mapping such as
the `dimensions` dict of a raw WooCommerce record. -/
inductive PyLeaf where
  | none
  | str (s : String)
  | int (n : Int)
  | float (q : ℚ)
  | bool (b : Bool)
deriving DecidableEq

/-- Python values handled by the editor / sync pipeline: `None`, strings,
ints, floats (modelled exactly as rationals), bools, `datetime.date`,
`datetime.datetime`, and one level of nested dict (used by `dimensions`). -/
inductive PyVal where
  | none
  | str (s : String)
  | int (n : Int)
  | float (q : ℚ)
  | bool (b : Bool)
  | date (y m d : Nat)
  | datetime (y m d hh mi ss : Nat)
  | dict (entries : List (String × PyLeaf))
deriving DecidableEq

/-- Embed a scalar stored in a sub-mapping back into the general value type. -/
def PyLeaf.toVal : PyLeaf → PyVal
  | .none => .none
  | .str s => .str s
  | .int n => .int n
  | .float q => .float q
  | .bool b => .bool b

/-- A raw WooCommerce record (`WcProductRaw.raw`): a Python dict, modelled as
an association list from field name to value. -/
abbrev RawRecord := List (String × PyVal)

/-- A pending edit set (`WcProductEdit.edits`): field key to canonical value. -/
abbrev Edits := List (String × PyVal)

/-! ## Characters and strings: models of Python `str` helpers -/

/-- Model of a Python whitespace character as removed by `str.strip()`. -/
def isWsChar (c : Char) : Bool :=
  c = ' ' || c = '\t' || c = '\n' || c = '\r' || c = '\x0b' || c = '\x0c'

/-- Strip whitespace from both ends of a character list (`str.strip()`). -/
def stripChars (l : List Char) : List Char :=
  ((l.dropWhile isWsChar).reverse.dropWhile isWsChar).reverse

/-- Model of Python `str.strip()`. -/
def pyStrip (s : String) : String := String.mk (stripChars s.data)

/-- Model of Python `str.lower()` (ASCII-adequate for the token sets used). -/
def lowerStr (s : String) : String := String.mk (s.data.map Char.toLower)

/-- Decimal digit character for `n < 10`. -/
def digitChar (n : Nat) : Char := Char.ofNat (48 + n)

/-- Decimal digits of a natural number, most significant first. -/
def natChars (n : Nat) : List Char :=
  if h : n < 10 then [digitChar n]
  else
    have : n / 10 < n := Nat.div_lt_self (by omega) (by omega)
    natChars (n / 10) ++ [digitChar (n % 10)]

/-- Model of Python `str(n)` for an int. -/
def intToString (n : Int) : String :=
  (if n < 0 then "-" else "") ++ String.mk (natChars n.natAbs)

/-- Truncation toward zero, the behaviour of Python `int(float)`. -/
def pyTrunc (q : ℚ) : Int := if q < 0 then ⌈q⌉ else ⌊q⌋

/-- Fractional decimal digits of `q` (expects `0 ≤ q < 1`), with `fuel`
bounding the number of digits; used only to render floats as text. -/
def fracChars (q : ℚ) (fuel : Nat) : List Char :=
  match fuel with
  | 0 => []
  | fuel + 1 =>
    if q = 0 then []
    else
      let q10 := q * 10
      digitChar (pyTrunc q10).toNat :: fracChars (q10 - (pyTrunc q10 : ℚ)) fuel

/-- Model of Python `str(x)` for a float: sign, integer part, `'.'`, fraction.
The exact digit sequence Python prints (shortest round-trip repr) is not
load-bearing for any claim; what matters is that the result is a non-empty
string of non-whitespace characters. -/
def floatToString (q : ℚ) : String :=
  let a : ℚ := |q|
  let ip : Nat := (pyTrunc a).toNat
  let frac := fracChars (a - (ip : ℚ)) 17
  (if q < 0 then "-" else "") ++ String.mk (natChars ip) ++ "." ++
    (if frac.isEmpty then "0" else String.mk frac)

/-- Two-digit zero-padded rendering (`%02d`). -/
def pad2 (n : Nat) : String :=
  if n < 10 then String.mk ['0', digitChar n] else String.mk (natChars n)

/-- Four-digit zero-padded rendering (`%04d`). -/
def pad4 (n : Nat) : String :=
  if n < 10 then String.mk ['0', '0', '0', digitChar n]
  else if n < 100 then String.mk (['0', '0'] ++ natChars n)
  else if n < 1000 then String.mk ('0' :: natChars n)
  else String.mk (natChars n)

/-- `date.isoformat()`: `YYYY-MM-DD`. -/
def isoDate (y m d : Nat) : String := pad4 y ++ "-" ++ pad2 m ++ "-" ++ pad2 d

/-- `datetime.strftime("%Y-%m-%dT%H:%M:%S")`. -/
def fmtDateTimeT (y m d hh mi ss : Nat) : String :=
  isoDate y m d ++ "T" ++ pad2 hh ++ ":" ++ pad2 mi ++ ":" ++ pad2 ss

/-- Model of Python `str(val)` on the values of the model. A dict renders to
an opaque brace pair: its exact repr is irrelevant to every claim. -/
def pyStr : PyVal → String
  | .none => "None"
  | .str s => s
  | .int n => intToString n
  | .float q => floatToString q
  | .bool b => if b then "True" else "False"
  | .date y m d => isoDate y m d
  | .datetime y m d hh mi ss =>
      isoDate y m d ++ " " ++ pad2 hh ++ ":" ++ pad2 mi ++ ":" ++ pad2 ss
  | .dict _ => "\x7b\x7d"

/-! ## Numeric string parsing (`float(...)` / `int(...)` on strings) -/

/-- Leading sign split, as accepted by Python numeric literals. -/
def splitSign : List Char → Bool × List Char
  | '-' :: rest => (true, rest)
  | '+' :: rest => (false, rest)
  | l => (false, l)

/-- ASCII digit test (the digits accepted by Python numeric parsing). -/
def isDigitChar (c : Char) : Bool :=
  c = '0' || c = '1' || c = '2' || c = '3' || c = '4' ||
  c = '5' || c = '6' || c = '7' || c = '8' || c = '9'

/-- Value of a digit list, most significant first. -/
def natOfDigits (ds : List Char) : Nat :=
  ds.foldl (fun n c => n * 10 + (c.toNat - 48)) 0

/-- `10 ^ e` over ℚ for a possibly negative exponent. -/
def pow10 (e : Int) : ℚ :=
  if 0 ≤ e then ((10 : ℚ) ^ e.toNat) else ((10 : ℚ) ^ (-e).toNat)⁻¹

/-- Model of Python `float(string)` on an already-cleaned character list:
optional sign, decimal mantissa with at most one `'.'`, optional exponent.
(`nan`/`inf`/underscore literals are outside the model; no claim depends on
them.) Returns `Option.none` exactly when Python raises `ValueError`. -/
def parseFloatChars (l : List Char) : Option ℚ :=
  let (neg, l1) := splitSign l
  let intDs := l1.takeWhile isDigitChar
  let rest1 := l1.dropWhile isDigitChar
  let (fracDs, rest2) :=
    match rest1 with
    | '.' :: r => (r.takeWhile isDigitChar, r.dropWhile isDigitChar)
    | _ => (([] : List Char), rest1)
  let hasDigits := !intDs.isEmpty || !fracDs.isEmpty
  let (expOk, expVal, rest3) :=
    match rest2 with
    | 'e' :: r =>
        let (eneg, r1) := splitSign r
        let eds := r1.takeWhile isDigitChar
        (!eds.isEmpty, (if eneg then -(natOfDigits eds : Int) else (natOfDigits eds : Int)),
         r1.dropWhile isDigitChar)
    | 'E' :: r =>
        let (eneg, r1) := splitSign r
        let eds := r1.takeWhile isDigitChar
        (!eds.isEmpty, (if eneg then -(natOfDigits eds : Int) else (natOfDigits eds : Int)),
         r1.dropWhile isDigitChar)
    | _ => (true, (0 : Int), rest2)
  if hasDigits && expOk && rest3.isEmpty then
    let mant : ℚ := (natOfDigits intDs : ℚ) +
      (natOfDigits fracDs : ℚ) / ((10 : ℚ) ^ fracDs.length)
    let v := mant * pow10 expVal
    some (if neg then -v else v)
  else Option.none

/-- Model of Python `int(string)`: optional sign followed by one or more
digits, surrounding whitespace tolerated. -/
def parseIntChars (l : List Char) : Option Int :=
  let l' := stripChars l
  let (neg, l1) := splitSign l'
  if !l1.isEmpty && l1.all isDigitChar then
    some (if neg then -(natOfDigits l1 : Int) else (natOfDigits l1 : Int))
  else Option.none

/-- `raw.replace(" ", "").replace(" ", "")` after `strip()`, from
`_normalize_float` / `_normalize_int` in `app.py`. -/
def cleanNum (s : String) : List Char :=
  (stripChars s.data).filter (fun c => !(c = ' ' || c = '\u00A0'))

/-- The comma/dot disambiguation of `_normalize_float` / `_normalize_int`:
when both separators appear the rightmost one becomes the decimal point and
the other is stripped; a lone comma becomes a dot.  `rfind(",") > rfind(".")`
is expressed on the reversed list (both characters are present in that
branch, so the two formulations agree). -/
def commaDotAdjust (l : List Char) : List Char :=
  if l.contains ',' && l.contains '.' then
    if l.reverse.findIdx (fun c => c = ',') < l.reverse.findIdx (fun c => c = '.') then
      (l.filter (fun c => c ≠ '.')).map (fun c => if c = ',' then '.' else c)
    else
      l.filter (fun c => c ≠ ',')
  else if l.contains ',' then
    l.map (fun c => if c = ',' then '.' else c)
  else l

/-! ## Value normalization (`app.py` `_is_empty` / `_normalize_*`) -/

/-- `_is_empty` from `app.py`: `None`, NaN (outside the model), and
empty / whitespace-only strings count as empty. -/
def isEmptyVal : PyVal → Bool
  | .none => true
  | .str s => stripChars s.data = []
  | _ => false

/-- `_normalize_text`. -/
def normalize_text (v : PyVal) : PyVal :=
  if isEmptyVal v then .none else .str (pyStrip (pyStr v))

def trueTokens : List String := ["1", "true", "yes", "taip", "y"]
def falseTokens : List String := ["0", "false", "no", "ne", "n"]

/-- `_normalize_bool`: three-valued outcome — `true`, `false`, or absent. -/
def normalize_bool (v : PyVal) : PyVal :=
  if isEmptyVal v then .none else
  match v with
  | .bool b => .bool b
  | .int n => .bool (n ≠ 0)
  | .float q => .bool (pyTrunc q ≠ 0)
  | .str s =>
      let raw := lowerStr (pyStrip s)
      if raw ∈ trueTokens then .bool true
      else if raw ∈ falseTokens then .bool false
      else .none
  | _ => .none

/-- `_normalize_float` (also used for the `price` type). -/
def normalize_float (v : PyVal) : PyVal :=
  if isEmptyVal v then .none else
  match v with
  | .str s =>
      match parseFloatChars (commaDotAdjust (cleanNum s)) with
      | some q => .float q
      | Option.none => .none
  | .float q => .float q
  | .int n => .float (n : ℚ)
  | .bool b => .float (if b then 1 else 0)
  | _ => .none

/-- `_normalize_int`: parse via float then truncate toward zero. -/
def normalize_int (v : PyVal) : PyVal :=
  if isEmptyVal v then .none else
  match v with
  | .str s =>
      match parseFloatChars (commaDotAdjust (cleanNum s)) with
      | some q => .int (pyTrunc q)
      | Option.none => .none
  | .float q => .int (pyTrunc q)
  | .int n => .int n
  | .bool b => .int (if b then 1 else 0)
  | _ => .none

/-- Leap-year rule of the proleptic Gregorian calendar (`datetime`). -/
def isLeapYear (y : Nat) : Bool :=
  y % 4 = 0 && (y % 100 ≠ 0 || y % 400 = 0)

def daysInMonth (y m : Nat) : Nat :=
  if m = 1 || m = 3 || m = 5 || m = 7 || m = 8 || m = 10 || m = 12 then 31
  else if m = 4 || m = 6 || m = 9 || m = 11 then 30
  else if m = 2 then (if isLeapYear y then 29 else 28)
  else 0

/-- Model of `datetime.date.fromisoformat` succeeding: a strict
`YYYY-MM-DD` string denoting a valid calendar date with year ≥ 1. -/
def isValidIsoDateChars : List Char → Bool
  | [a, b, c, d, h1, e, f, h2, g, i] =>
      isDigitChar a && isDigitChar b && isDigitChar c && isDigitChar d && h1 = '-' &&
      isDigitChar e && isDigitChar f && h2 = '-' && isDigitChar g && isDigitChar i &&
      (let y := natOfDigits [a, b, c, d]
       let mo := natOfDigits [e, f]
       let da := natOfDigits [g, i]
       1 ≤ y && 1 ≤ mo && mo ≤ 12 && 1 ≤ da && da ≤ daysInMonth y mo)
  | _ => false

/-- The string branch of `_normalize_date`, applied to the already-stripped
`raw = str(val).strip()`. -/
def normDateStr (raw : String) : PyVal :=
  if raw = "" then .none
  else if 'T' ∈ raw.data then .str raw
  else if isValidIsoDateChars raw.data then .str (raw ++ "T00:00:00")
  else .str raw

/-- `_normalize_date`: datetimes and dates are formatted to the canonical
`YYYY-MM-DDTHH:MM:SS` wire form; strings containing `T` pass through; bare
ISO dates get midnight appended; anything else is returned stripped. -/
def normalize_date (v : PyVal) : PyVal :=
  if isEmptyVal v then .none else
  match v with
  | .datetime y m d hh mi ss => .str (fmtDateTimeT y m d hh mi ss)
  | .date y m d => .str (isoDate y m d ++ "T00:00:00")
  | _ => normDateStr (pyStrip (pyStr v))

/-- The declared field value types (`wc_fields.WC_EDIT_FIELDS` `"type"`). -/
inductive FieldType where
  | text | price | float | int | bool | date
deriving DecidableEq

/-- `_normalize_value` from `app.py`: dispatch on the declared field type. -/
def normalize_value (t : FieldType) (v : PyVal) : PyVal :=
  match t with
  | .date => normalize_date v
  | .bool => normalize_bool v
  | .int => normalize_int v
  | .float => normalize_float v
  | .price => normalize_float v
  | .text => normalize_text v

/-! ## Field registry (`wc_fields.py`) -/

/-- `WC_EDIT_FIELDS`, reduced to the (key, type) pairs the logic uses. -/
def WC_EDIT_SPECS : List (String × FieldType) :=
  [("name", .text),
   ("description", .text),
   ("short_description", .text),
   ("regular_price", .price),
   ("sale_price", .price),
   ("date_on_sale_from", .date),
   ("date_on_sale_to", .date),
   ("manage_stock", .bool),
   ("stock_quantity", .int),
   ("dimensions.length", .float),
   ("dimensions.width", .float),
   ("dimensions.height", .float),
   ("purchase_note", .text)]

/-- The set of editable keys (`WC_EDIT_FIELD_KEYS` in `sync_to_wc.py`). -/
def wcEditFieldKeys : List String := WC_EDIT_SPECS.map Prod.fst

/-- `WC_FIELD_ALIASES` from `wc_fields.py` (default `[]` for unknown keys,
as in `WC_FIELD_ALIASES.get(key, [])`). -/
def WC_FIELD_ALIASES (key : String) : List String :=
  if key = "name" then ["name", "Pavadinimas"]
  else if key = "description" then ["description", "Aprašymas"]
  else if key = "short_description" then
    ["short_description", "Trumpas aprašymas", "Short description"]
  else if key = "regular_price" then ["regular_price", "Reguliari kaina", "Kaina"]
  else if key = "sale_price" then ["sale_price", "Akcijos kaina", "Sale price"]
  else if key = "date_on_sale_from" then ["date_on_sale_from", "Akcija nuo", "Sale from"]
  else if key = "date_on_sale_to" then ["date_on_sale_to", "Akcija iki", "Sale to"]
  else if key = "manage_stock" then ["manage_stock", "Valdyti atsargas"]
  else if key = "stock_quantity" then ["stock_quantity", "Atsargos"]
  else if key = "dimensions.length" then ["dimensions.length", "Ilgis"]
  else if key = "dimensions.width" then ["dimensions.width", "Plotis"]
  else if key = "dimensions.height" then ["dimensions.height", "Aukštis"]
  else if key = "purchase_note" then
    ["purchase_note", "Komentaras", "Komentarai", "Pastaba", "Pastabos", "comment"]
  else if key = "price" then ["price", "Kaina"]
  else []

/-- All keys registered in `WC_FIELD_ALIASES`. -/
def registryKeys : List String :=
  ["name", "description", "short_description", "regular_price", "sale_price",
   "date_on_sale_from", "date_on_sale_to", "manage_stock", "stock_quantity",
   "dimensions.length", "dimensions.width", "dimensions.height",
   "purchase_note", "price"]

/-- `key.startswith("dimensions.")`. -/
def isDimsKey (k : String) : Bool := k.data.take 11 = "dimensions.".data

/-- `key.split(".", 1)[1]` for a `dimensions.` key. -/
def dimsPart (k : String) : String := String.mk (k.data.drop 11)

/-- Scan an alias list, returning the first present value (Python `None`
for a present-but-null binding, `PyVal.none` as well when nothing at all is
found — Python conflates the two in the returned object, while the *scan*
stops at a present null). -/
def scanAliases (raw : RawRecord) : List String → PyVal
  | [] => .none
  | a :: rest =>
    match List.lookup a raw with
    | some v => v
    | Option.none => scanAliases raw rest

/-- `get_raw_value` from `wc_fields.py`: nested lookup for dotted keys, then
the flat key, then each alias in declared order. -/
def get_raw_value (raw : RawRecord) (key : String) : PyVal :=
  match (if isDimsKey key then
           match List.lookup "dimensions" raw with
           | some (PyVal.dict d) => (List.lookup (dimsPart key) d).map PyLeaf.toVal
           | _ => Option.none
         else Option.none) with
  | some v => v
  | Option.none =>
    match List.lookup key raw with
    | some v => v
    | Option.none => scanAliases raw (WC_FIELD_ALIASES key)

/-- Modelled from the spec: `resolve(raw_record, key)` "trying the canonical
key first, then each alias in declared order, returning the first present
value"; per §4.1 a dotted canonical key resolves through one level of a
sub-mapping.  Used as the specification side of the C7 refinement. -/
def resolveSpec (raw : RawRecord) (key : String) : PyVal :=
  match (if isDimsKey key then
           match List.lookup "dimensions" raw with
           | some (PyVal.dict d) => (List.lookup (dimsPart key) d).map PyLeaf.toVal
           | _ => Option.none
         else List.lookup key raw) with
  | some v => v
  | Option.none => scanAliases raw (WC_FIELD_ALIASES key)

/-! ## Dict operations (Python dict assignment / `pop` on assoc lists) -/

/-- Python `d[k] = v`: overwrite in place if present, else append. -/
def setKey {α : Type} (l : List (String × α)) (k : String) (v : α) : List (String × α) :=
  if (List.lookup k l).isSome then
    l.map (fun p => if p.1 = k then (k, v) else p)
  else l ++ [(k, v)]

/-- Python `d.pop(k, None)`, viewed as the resulting dict. -/
def eraseKey {α : Type} (l : List (String × α)) (k : String) : List (String × α) :=
  l.filter (fun p => p.1 ≠ k)

/-! ## The bulk-edit save step (`app.py` `main`, save-button handler) -/

/-- The candidate new value for one field of one row: the normalized
submitted cell, with an explicit `False` over an absent bool baseline
downgraded to `None` (lines 790–794 of `app.py`). -/
def fieldNew (raw : RawRecord) (row : String → PyVal) (k : String) (t : FieldType) : PyVal :=
  let nv0 := normalize_value t (row k)
  let bv := normalize_value t (get_raw_value raw k)
  if t = FieldType.bool ∧ bv = PyVal.none ∧ nv0 = PyVal.bool false then PyVal.none else nv0

/-- One editable field of one row: keep the candidate value only when it is
a true deviation from the normalized baseline (lines 787–799 of `app.py`). -/
def saveField (raw : RawRecord) (row : String → PyVal) (edits : Edits)
    (spec : String × FieldType) : Edits :=
  let k := spec.1
  let nv := fieldNew raw row k spec.2
  let bv := normalize_value spec.2 (get_raw_value raw k)
  if nv = PyVal.none ∨ nv = bv then eraseKey edits k else setKey edits k nv

/-- The `for spec in WC_EDIT_FIELDS` loop over one row. -/
def fieldLoop (raw : RawRecord) (row : String → PyVal) (edits : Edits) : Edits :=
  WC_EDIT_SPECS.foldl (saveField raw row) edits

/-- Effective price used by the validation block: the edit value when
present (a stored `None` also falls back), else the normalized baseline. -/
def effPrice (raw : RawRecord) (edits : Edits) (k : String) : PyVal :=
  match List.lookup k edits with
  | some v => if v = PyVal.none then normalize_value .price (get_raw_value raw k) else v
  | Option.none => normalize_value .price (get_raw_value raw k)

/-- Numeric view of a value, for the Python `>` comparison between two
canonical price values (always floats or `None` in this pipeline). -/
def pyNumVal : PyVal → Option ℚ
  | .int n => some (n : ℚ)
  | .float q => some q
  | .bool b => some (if b then 1 else 0)
  | _ => Option.none

/-- `sale_val > reg_val` on canonical numeric values. -/
def pyGt (a b : PyVal) : Bool :=
  match pyNumVal a, pyNumVal b with
  | some x, some y => y < x
  | _, _ => false

/-- The four keys dropped together by the price-ordering rule. -/
def priceValKeys : List String :=
  ["regular_price", "sale_price", "date_on_sale_from", "date_on_sale_to"]

/-- Price-ordering validation (lines 801–812 of `app.py`): when the edit set
touches a price and the effective sale price exceeds the effective regular
price, drop the whole price-related sub-group and flag the row. -/
def priceStep (raw : RawRecord) (edits : Edits) : Edits × Bool :=
  if (List.lookup "regular_price" edits).isSome ∨
     (List.lookup "sale_price" edits).isSome then
    let regv := effPrice raw edits "regular_price"
    let salev := effPrice raw edits "sale_price"
    if regv ≠ PyVal.none ∧ salev ≠ PyVal.none ∧ pyGt salev regv = true then
      (priceValKeys.foldl eraseKey edits, true)
    else (edits, false)
  else (edits, false)

/-- Stock-tracking gate (lines 814–819 of `app.py`): a quantity edit without
a `manage_stock` edit is dropped unless the baseline `manage_stock`
normalizes to `True`. -/
def stockGate (raw : RawRecord) (edits : Edits) : Edits × Bool :=
  if (List.lookup "stock_quantity" edits).isSome ∧
     (List.lookup "manage_stock" edits).isNone then
    if normalize_value .bool (get_raw_value raw "manage_stock") ≠ PyVal.bool true then
      (eraseKey edits "stock_quantity", true)
    else (edits, false)
  else (edits, false)

/-- Full per-row save step: field loop, then price validation, then the
stock gate.  Returns the resulting edit set and the two failure flags
(price-validation failure, stock-gate failure) reported for the row. -/
def saveRow (raw : RawRecord) (row : String → PyVal) (edits : Edits) :
    Edits × Bool × Bool :=
  let e1 := fieldLoop raw row edits
  let pr := priceStep raw e1
  let sg := stockGate raw pr.1
  (sg.1, pr.2, sg.2)

/-! ## Batch sync (`sync_to_wc.py`) -/

/-- Python truthiness `bool(value)` on model values. -/
def pyTruthy : PyVal → Bool
  | .none => false
  | .str s => s ≠ ""
  | .int n => n ≠ 0
  | .float q => q ≠ 0
  | .bool b => b
  | .date _ _ _ => true
  | .datetime _ _ _ _ _ _ => true
  | .dict d => !d.isEmpty

/-- Python `int(value)`; `Option.none` models a raised exception. -/
def pyToInt : PyVal → Option Int
  | .int n => some n
  | .bool b => some (if b then 1 else 0)
  | .float q => some (pyTrunc q)
  | .str s => parseIntChars s.data
  | _ => Option.none

/-- The per-key wire coercion shared by `_apply_edits_to_raw` and
`_build_wc_payload_from_edits` for non-dimension keys: prices become
strings, `stock_quantity` becomes an int, `manage_stock` a bool, anything
else passes through. -/
def coerceWire (k : String) (v : PyVal) : Option PyVal :=
  if k = "regular_price" ∨ k = "sale_price" then some (.str (pyStr v))
  else if k = "stock_quantity" then (pyToInt v).map PyVal.int
  else if k = "manage_stock" then some (.bool (pyTruthy v))
  else some v

/-- One iteration of the `_apply_edits_to_raw` loop. -/
def applyOne (raw : RawRecord) (k : String) (v : PyVal) : Option RawRecord :=
  if ¬ k ∈ wcEditFieldKeys then some raw
  else if v = PyVal.none then some raw
  else if isDimsKey k then
    let dims := match List.lookup "dimensions" raw with
      | some (PyVal.dict d) => d
      | _ => []
    some (setKey raw "dimensions"
      (PyVal.dict (setKey dims (dimsPart k) (PyLeaf.str (pyStr v)))))
  else (coerceWire k v).map (fun w => setKey raw k w)

/-- `_apply_edits_to_raw`: merge confirmed-sent edit values into a raw
snapshot, with the same coercions used to build the wire payload. -/
def applyEditsToRaw (raw : RawRecord) : Edits → Option RawRecord
  | [] => some raw
  | (k, v) :: rest =>
    match applyOne raw k v with
    | some r => applyEditsToRaw r rest
    | Option.none => Option.none

/-- Helper for `_build_wc_payload_from_edits`: accumulate the flat payload
and the nested `dimensions` object. -/
def buildPayloadAux : Edits → RawRecord → List (String × PyLeaf) →
    Option (RawRecord × List (String × PyLeaf))
  | [], p, dims => some (p, dims)
  | (k, v) :: rest, p, dims =>
    if ¬ k ∈ wcEditFieldKeys then buildPayloadAux rest p dims
    else if v = PyVal.none then buildPayloadAux rest p dims
    else if isDimsKey k then
      buildPayloadAux rest p (setKey dims (dimsPart k) (PyLeaf.str (pyStr v)))
    else match coerceWire k v with
      | some w => buildPayloadAux rest (setKey p k w) dims
      | Option.none => Option.none

/-- `_build_wc_payload_from_edits` (without the `id` field added later). -/
def build_wc_payload_from_edits (edits : Edits) : Option RawRecord :=
  (buildPayloadAux edits [] []).map
    (fun pd => if pd.2.isEmpty then pd.1 else setKey pd.1 "dimensions" (PyVal.dict pd.2))

/-- Local persisted state seen by one sync run: the Raw Snapshot store and
the Local Edit Store, keyed by WooCommerce id. -/
structure SyncState where
  raws : Int → Option RawRecord
  edits : Int → Option Edits

/-- Pointwise update of a store. -/
def upd {α : Type} (f : Int → Option α) (i : Int) (v : Option α) : Int → Option α :=
  fun j => if j = i then v else f j

/-- One per-item entry of a batch response, as inspected by `flush_batch`:
entries that are not dicts or whose `id` does not parse as an int are
skipped (`junk`); the rest carry an id and either success or a structured
error with its message. -/
inductive RespEntry where
  | junk
  | ok (i : Int)
  | err (i : Int) (msg : String)
deriving DecidableEq

/-- `success_ids` accumulated by the response-classification loop. -/
def succIds (items : List RespEntry) : List Int :=
  items.filterMap (fun it => match it with | .ok i => some i | _ => Option.none)

/-- `error_ids` accumulated by the response-classification loop. -/
def errIds (items : List RespEntry) : List Int :=
  items.filterMap (fun it => match it with | .err i _ => some i | _ => Option.none)

/-- The per-item failure reasons surfaced by the classification loop. -/
def errReports (items : List RespEntry) : List (Int × String) :=
  items.filterMap (fun it => match it with | .err i m => some (i, m) | _ => Option.none)

/-- The commit guard of `flush_batch`'s per-item loop, exactly as written:
nothing commits on an empty response; items with an error entry are
skipped; items outside a *non-empty* success set are skipped.  (When the
response is non-empty but produced no success ids at all, the guard falls
through and the item commits — see claim C1.) -/
def commitCond (items : List RespEntry) (i : Int) : Bool :=
  if items.isEmpty then false
  else if i ∈ errIds items then false
  else if ¬ (succIds items).isEmpty ∧ ¬ i ∈ succIds items then false
  else true

/-- `_update_raw_after_push` base record: the stored raw if it is a
non-empty dict, else a fresh `{"id": wc_id}`. -/
def baseRawFor (s : SyncState) (i : Int) : RawRecord :=
  match s.raws i with
  | some r => if r.isEmpty then [("id", PyVal.int i)] else r
  | Option.none => [("id", PyVal.int i)]

/-- Commit one confirmed item: `_update_raw_after_push` plus deletion of the
item's `WcProductEdit` row. -/
def commitOne (s : SyncState) (i : Int) (e : Edits) : Option SyncState :=
  (applyEditsToRaw (baseRawFor s i) e).map
    (fun r => { raws := upd s.raws i (some r), edits := upd s.edits i Option.none })

/-- The per-item commit loop of `flush_batch` over the batch metadata. -/
def runCommits (items : List RespEntry) : SyncState → List (Int × Edits) →
    Option SyncState
  | s, [] => some s
  | s, (i, e) :: rest =>
    if commitCond items i then
      match commitOne s i e with
      | some s' => runCommits items s' rest
      | Option.none => Option.none
    else runCommits items s rest

/-- `flush_batch` after a successful transport call: classify the response,
commit every item the guard lets through, and surface the per-item error
reports.  (A transport-level exception leaves the state untouched and is
not modelled further; `Option.none` models a Python exception escaping the
commit loop.) -/
def flush_batch (s : SyncState) (meta : List (Int × Edits))
    (items : List RespEntry) : Option (SyncState × List (Int × String)) :=
  (runCommits items s meta).map (fun s' => (s', errReports items))

/-! ## Backup rotation (`backup_utils.py`) -/

/-- The backup directory contents plus the live store file. -/
structure BFS where
  db : Option String
  files : String → Option String

/-- Pointwise update of the backup directory. -/
def updFile (f : String → Option String) (n : String) (v : Option String) :
    String → Option String :=
  fun m => if m = n then v else f m

def latestBakName : String := "inventory-latest.bak"
def prevBakName : String := "inventory-prev.bak"

/-- `f"inventory{suffix}-{timestamp}.bak"` with `suffix = f"-{label}"` for a
non-empty label. -/
def mkBackupName (label ts : String) : String :=
  "inventory" ++ (if label = "" then "" else "-" ++ label) ++ "-" ++ ts ++ ".bak"

/-- `create_backup`: no-op signal when the store is missing; otherwise copy
the store to the timestamped labeled file, rotate `latest` to `prev`
(`Path.replace`, i.e. a rename), and re-copy the store to `latest`. -/
def create_backup (label ts : String) (s : BFS) : BFS × Option String :=
  match s.db with
  | Option.none => (s, Option.none)
  | some content =>
    let target := mkBackupName label ts
    let f1 := updFile s.files target (some content)
    let f2 := match f1 latestBakName with
      | some x => updFile (updFile f1 prevBakName (some x)) latestBakName Option.none
      | Option.none => f1
    let f3 := updFile f2 latestBakName (some content)
    ({ db := s.db, files := f3 }, some target)

/-- The live store taking new content between backup calls. -/
def setDb (s : BFS) (c : String) : BFS := { s with db := some c }

/-! ## Infrastructure: `dropWhile` / `stripChars` lemmas -/

theorem dropWhile_head_false {α : Type} {p : α → Bool} {l : List α} {c : α} {rest : List α}
    (h : l.dropWhile p = c :: rest) : p c = false := by
  induction l with
  | nil => simp at h
  | cons d ds ih =>
    rw [List.dropWhile_cons] at h
    by_cases hp : p d = true
    · rw [if_pos hp] at h
      exact ih h
    · rw [if_neg hp] at h
      injection h with h1 _
      subst h1
      simpa using hp

theorem dropWhile_idem {α : Type} (p : α → Bool) (l : List α) :
    (l.dropWhile p).dropWhile p = l.dropWhile p := by
  cases h : l.dropWhile p with
  | nil => simp
  | cons c rest => simp [List.dropWhile_cons, dropWhile_head_false h]

theorem exists_dropWhile_append {α : Type} (p : α → Bool) (l : List α) :
    ∃ t, t ++ l.dropWhile p = l := by
  induction l with
  | nil => exact ⟨[], rfl⟩
  | cons c rest ih =>
    by_cases hp : p c = true
    · obtain ⟨t, ht⟩ := ih
      exact ⟨c :: t, by simp [List.dropWhile_cons, hp, ht]⟩
    · exact ⟨[], by simp [List.dropWhile_cons, hp]⟩

theorem dropWhile_eq_self {α : Type} {p : α → Bool} {l : List α}
    (h : ∀ c ∈ l, p c = false) : l.dropWhile p = l := by
  cases l with
  | nil => rfl
  | cons c rest => simp [List.dropWhile_cons, h c (by simp)]

theorem length_dropWhile_le {α : Type} (p : α → Bool) (l : List α) :
    (l.dropWhile p).length ≤ l.length := by
  induction l with
  | nil => simp
  | cons c rest ih =>
    rw [List.dropWhile_cons]
    by_cases hp : p c = true
    · rw [if_pos hp]
      exact Nat.le_trans ih (by simp)
    · rw [if_neg hp]

theorem mem_dropWhile_of_not {α : Type} {p : α → Bool} {l : List α} {c : α}
    (hc : c ∈ l) (hp : p c = false) : c ∈ l.dropWhile p := by
  induction l with
  | nil => simp at hc
  | cons d ds ih =>
    rw [List.dropWhile_cons]
    by_cases hd : p d = true
    · rw [if_pos hd]
      rcases List.mem_cons.mp hc with rfl | h
      · rw [hp] at hd; cases hd
      · exact ih h
    · rw [if_neg hd]; exact hc

theorem mem_stripChars {l : List Char} {c : Char} (hc : c ∈ l)
    (hp : isWsChar c = false) : c ∈ stripChars l := by
  unfold stripChars
  have h1 : c ∈ l.dropWhile isWsChar := mem_dropWhile_of_not hc hp
  have h2 : c ∈ (l.dropWhile isWsChar).reverse := by simpa using h1
  have h3 := mem_dropWhile_of_not h2 hp
  simpa using h3

theorem stripChars_ne_nil {l : List Char} {c : Char} (hc : c ∈ l)
    (hp : isWsChar c = false) : stripChars l ≠ [] :=
  List.ne_nil_of_mem (mem_stripChars hc hp)

theorem stripChars_eq_self {l : List Char} (h : ∀ c ∈ l, isWsChar c = false) :
    stripChars l = l := by
  unfold stripChars
  rw [dropWhile_eq_self h, dropWhile_eq_self (fun c hcmem => h c (by simpa using hcmem)),
    List.reverse_reverse]

theorem stripChars_idem (l : List Char) : stripChars (stripChars l) = stripChars l := by
  have hm : (l.dropWhile isWsChar).dropWhile isWsChar = l.dropWhile isWsChar :=
    dropWhile_idem _ l
  set m := l.dropWhile isWsChar with hmdef
  set r := (m.reverse.dropWhile isWsChar).reverse with hrdef
  have hrrev : r.reverse = m.reverse.dropWhile isWsChar := by
    rw [hrdef, List.reverse_reverse]
  have hsplit : ∃ t, m = r ++ t := by
    obtain ⟨t, ht⟩ := exists_dropWhile_append isWsChar m.reverse
    refine ⟨t.reverse, ?_⟩
    have := congrArg List.reverse ht
    rw [List.reverse_append, List.reverse_reverse, ← hrrev, List.reverse_reverse] at this
    exact this.symm
  have h1 : r.dropWhile isWsChar = r := by
    cases hcase : r with
    | nil => rfl
    | cons c rest =>
      obtain ⟨t, ht⟩ := hsplit
      rw [hcase] at ht
      have hws : isWsChar c = false := by
        by_contra hcontra
        have hws' : isWsChar c = true := by simpa using hcontra
        have hlen := congrArg List.length hm
        rw [hmdef] at hm
        have : m.dropWhile isWsChar = m := hm
        rw [ht] at this
        rw [List.cons_append, List.dropWhile_cons, if_pos hws'] at this
        have hle := length_dropWhile_le isWsChar (rest ++ t)
        rw [this] at hle
        simp at hle
      rw [List.dropWhile_cons, if_neg (by simp [hws])]
  have h2 : r.reverse.dropWhile isWsChar = r.reverse := by
    rw [hrrev]
    exact dropWhile_idem _ _
  show ((r.dropWhile isWsChar).reverse.dropWhile isWsChar).reverse = r
  rw [h1, h2, List.reverse_reverse]

theorem string_mk_data (l : List Char) : (String.mk l).data = l := rfl

theorem string_data_mk (s : String) : String.mk s.data = s := rfl

theorem data_append (a b : String) : (a ++ b).data = a.data ++ b.data := rfl

theorem string_mk_eq_empty_iff (l : List Char) : String.mk l = "" ↔ l = [] := by
  constructor
  · intro h
    exact congrArg String.data h
  · intro h; rw [h]

theorem pyStrip_idem (s : String) : pyStrip (pyStrip s) = pyStrip s := by
  unfold pyStrip
  rw [string_mk_data, stripChars_idem]

theorem pyStrip_eq_empty_iff (s : String) : pyStrip s = "" ↔ stripChars s.data = [] :=
  string_mk_eq_empty_iff _

/-! ## Infrastructure: digits and non-whitespace renderings -/

theorem digitChar_digit {k : Nat} (h : k < 10) : isDigitChar (digitChar k) = true := by
  interval_cases k <;> decide

theorem digit_not_ws {c : Char} (h : isDigitChar c = true) : isWsChar c = false := by
  simp only [isDigitChar, Bool.or_eq_true, decide_eq_true_eq] at h
  rcases h with ((((((((h | h) | h) | h) | h) | h) | h) | h) | h) | h <;> subst h <;> decide

theorem natChars_ne_nil (n : Nat) : natChars n ≠ [] := by
  unfold natChars
  split
  · simp
  · simp

theorem natChars_digits (n : Nat) : ∀ c ∈ natChars n, isDigitChar c = true := by
  induction n using Nat.strong_induction_on with
  | _ n ih =>
    unfold natChars
    split
    · intro c hc
      simp only [List.mem_singleton] at hc
      subst hc
      exact digitChar_digit (by omega)
    · intro c hc
      rw [List.mem_append] at hc
      rcases hc with h | h
      · exact ih (n / 10) (Nat.div_lt_self (by omega) (by omega)) c h
      · simp only [List.mem_singleton] at h
        subst h
        exact digitChar_digit (Nat.mod_lt _ (by omega))

theorem natChars_nonws (n : Nat) : ∀ c ∈ natChars n, isWsChar c = false :=
  fun c hc => digit_not_ws (natChars_digits n c hc)

theorem nonws_append {a b : String}
    (ha : ∀ c ∈ a.data, isWsChar c = false) (hb : ∀ c ∈ b.data, isWsChar c = false) :
    ∀ c ∈ (a ++ b).data, isWsChar c = false := by
  intro c hc
  rw [data_append, List.mem_append] at hc
  rcases hc with h | h
  · exact ha c h
  · exact hb c h

theorem pad2_nonws (n : Nat) : ∀ c ∈ (pad2 n).data, isWsChar c = false := by
  unfold pad2
  split
  · intro c hc
    rw [string_mk_data] at hc
    rcases List.mem_cons.mp hc with rfl | hc
    · decide
    · simp only [List.mem_singleton] at hc
      subst hc
      exact digit_not_ws (digitChar_digit (by omega))
  · intro c hc
    rw [string_mk_data] at hc
    exact natChars_nonws _ c hc

theorem pad4_nonws (n : Nat) : ∀ c ∈ (pad4 n).data, isWsChar c = false := by
  unfold pad4
  split
  · intro c hc
    rw [string_mk_data] at hc
    rcases List.mem_cons.mp hc with rfl | hc
    · decide
    · rcases List.mem_cons.mp hc with rfl | hc
      · decide
      · rcases List.mem_cons.mp hc with rfl | hc
        · decide
        · simp only [List.mem_singleton] at hc
          subst hc
          exact digit_not_ws (digitChar_digit (by omega))
  · split
    · intro c hc
      rw [string_mk_data, List.mem_append] at hc
      rcases hc with h | h
      · rcases List.mem_cons.mp h with rfl | h
        · decide
        · simp only [List.mem_singleton] at h
          subst h
          decide
      · exact natChars_nonws _ c h
    · split
      · intro c hc
        rw [string_mk_data] at hc
        rcases List.mem_cons.mp hc with rfl | hc
        · decide
        · exact natChars_nonws _ c hc
      · intro c hc
        rw [string_mk_data] at hc
        exact natChars_nonws _ c hc

theorem isoDate_nonws (y m d : Nat) : ∀ c ∈ (isoDate y m d).data, isWsChar c = false := by
  unfold isoDate
  exact nonws_append (nonws_append (nonws_append (nonws_append
    (pad4_nonws y) (by decide)) (pad2_nonws m)) (by decide)) (pad2_nonws d)

theorem fmtDateTimeT_nonws (y m d hh mi ss : Nat) :
    ∀ c ∈ (fmtDateTimeT y m d hh mi ss).data, isWsChar c = false := by
  unfold fmtDateTimeT
  exact nonws_append (nonws_append (nonws_append (nonws_append
    (nonws_append (nonws_append (isoDate_nonws y m d) (by decide)) (pad2_nonws hh))
    (by decide)) (pad2_nonws mi)) (by decide)) (pad2_nonws ss)

theorem fmtDateTimeT_hasT (y m d hh mi ss : Nat) :
    'T' ∈ (fmtDateTimeT y m d hh mi ss).data := by
  unfold fmtDateTimeT
  rw [data_append, data_append, data_append, data_append, data_append, data_append]
  simp only [List.mem_append]
  left; left; left; left; left; right
  decide

/-! ## Normalization: shapes and idempotence (claim C6) -/

theorem isoDate_has_dash (y m d : Nat) : '-' ∈ (isoDate y m d).data := by
  unfold isoDate
  rw [data_append, data_append, data_append, data_append]
  simp only [List.mem_append]
  left; left; left; right
  decide

theorem str_ne_empty_of_mem {f : String} {c : Char} (h : c ∈ f.data) : f ≠ "" := by
  intro he
  subst he
  simp at h

theorem stripChars_pyStr_ne_nil {v : PyVal} (hne : isEmptyVal v = false) :
    stripChars (pyStr v).data ≠ [] := by
  cases v with
  | none => simp [isEmptyVal] at hne
  | str s =>
    have h : ¬ stripChars s.data = [] := by
      simpa [isEmptyVal] using hne
    exact h
  | int n =>
    obtain ⟨c, hc⟩ := List.exists_mem_of_ne_nil _ (natChars_ne_nil n.natAbs)
    refine stripChars_ne_nil (c := c) ?_ (digit_not_ws (natChars_digits _ c hc))
    show c ∈ (intToString n).data
    unfold intToString
    rw [data_append, List.mem_append]
    right
    exact hc
  | float q =>
    refine stripChars_ne_nil (c := '.') ?_ (by decide)
    show '.' ∈ (floatToString q).data
    unfold floatToString
    rw [data_append, data_append, data_append]
    simp only [List.mem_append]
    left; right
    decide
  | bool b => cases b <;> decide
  | date y m d =>
    exact stripChars_ne_nil (isoDate_has_dash y m d) (by decide)
  | datetime y m d hh mi ss =>
    refine stripChars_ne_nil (c := '-') ?_ (by decide)
    show '-' ∈ (isoDate y m d ++ " " ++ pad2 hh ++ ":" ++ pad2 mi ++ ":" ++ pad2 ss).data
    rw [data_append, data_append, data_append, data_append, data_append, data_append]
    simp only [List.mem_append]
    left; left; left; left; left; left
    exact isoDate_has_dash y m d
  | dict d =>
    show stripChars ("\x7b\x7d" : String).data ≠ []
    decide

theorem normalize_text_cases (v : PyVal) :
    normalize_text v = PyVal.none ∨
    ∃ t : String, normalize_text v = PyVal.str t ∧ stripChars t.data = t.data ∧ t ≠ "" := by
  unfold normalize_text
  by_cases he : isEmptyVal v = true
  · rw [if_pos he]
    left; rfl
  · rw [if_neg he]
    right
    refine ⟨pyStrip (pyStr v), rfl, ?_, ?_⟩
    · unfold pyStrip
      rw [string_mk_data, stripChars_idem]
    · rw [Ne, pyStrip_eq_empty_iff]
      exact stripChars_pyStr_ne_nil (by simpa using he)

theorem normalize_text_idem (v : PyVal) :
    normalize_text (normalize_text v) = normalize_text v := by
  rcases normalize_text_cases v with h | ⟨t, h, hfix, hne⟩ <;> rw [h]
  · rfl
  · have hdata : t.data ≠ [] := fun hd => hne (by
      have := congrArg String.mk hd
      simpa [string_data_mk] using this)
    have hempty : isEmptyVal (PyVal.str t) = false := by
      simp [isEmptyVal, hfix, hdata]
    unfold normalize_text
    rw [hempty, if_neg Bool.false_ne_true]
    show PyVal.str (pyStrip (pyStr (PyVal.str t))) = PyVal.str t
    unfold pyStrip pyStr
    rw [hfix, string_data_mk]

theorem normalize_bool_shape (v : PyVal) :
    normalize_bool v = PyVal.none ∨ ∃ b, normalize_bool v = PyVal.bool b := by
  unfold normalize_bool
  split
  · left; rfl
  · cases v with
    | bool b => right; exact ⟨b, rfl⟩
    | int n => right; exact ⟨_, rfl⟩
    | float q => right; exact ⟨_, rfl⟩
    | str s =>
      dsimp only
      split
      · right; exact ⟨true, rfl⟩
      · split
        · right; exact ⟨false, rfl⟩
        · left; rfl
    | none => left; rfl
    | date y m d => left; rfl
    | datetime y m d hh mi ss => left; rfl
    | dict d => left; rfl

theorem normalize_bool_idem (v : PyVal) :
    normalize_bool (normalize_bool v) = normalize_bool v := by
  rcases normalize_bool_shape v with h | ⟨b, h⟩ <;> rw [h] <;> rfl

theorem normalize_float_shape (v : PyVal) :
    normalize_float v = PyVal.none ∨ ∃ q, normalize_float v = PyVal.float q := by
  unfold normalize_float
  split
  · left; rfl
  · cases v with
    | str s =>
      dsimp only
      split
      · right; exact ⟨_, rfl⟩
      · left; rfl
    | float q => right; exact ⟨q, rfl⟩
    | int n => right; exact ⟨_, rfl⟩
    | bool b => right; exact ⟨_, rfl⟩
    | none => left; rfl
    | date y m d => left; rfl
    | datetime y m d hh mi ss => left; rfl
    | dict d => left; rfl

theorem normalize_float_idem (v : PyVal) :
    normalize_float (normalize_float v) = normalize_float v := by
  rcases normalize_float_shape v with h | ⟨q, h⟩ <;> rw [h] <;> rfl

theorem normalize_int_shape (v : PyVal) :
    normalize_int v = PyVal.none ∨ ∃ n, normalize_int v = PyVal.int n := by
  unfold normalize_int
  split
  · left; rfl
  · cases v with
    | str s =>
      dsimp only
      split
      · right; exact ⟨_, rfl⟩
      · left; rfl
    | float q => right; exact ⟨_, rfl⟩
    | int n => right; exact ⟨n, rfl⟩
    | bool b => right; exact ⟨_, rfl⟩
    | none => left; rfl
    | date y m d => left; rfl
    | datetime y m d hh mi ss => left; rfl
    | dict d => left; rfl

theorem normalize_int_idem (v : PyVal) :
    normalize_int (normalize_int v) = normalize_int v := by
  rcases normalize_int_shape v with h | ⟨n, h⟩ <;> rw [h] <;> rfl

theorem validIso_nonws {l : List Char} (h : isValidIsoDateChars l = true) :
    ∀ x ∈ l, isWsChar x = false := by
  rcases l with _ | ⟨c0, _ | ⟨c1, _ | ⟨c2, _ | ⟨c3, _ | ⟨c4, _ | ⟨c5, _ | ⟨c6, _ | ⟨c7,
    _ | ⟨c8, _ | ⟨c9, _ | ⟨c10, rest⟩⟩⟩⟩⟩⟩⟩⟩⟩⟩⟩
  all_goals try exact absurd h Bool.false_ne_true
  unfold isValidIsoDateChars at h
  simp only [Bool.and_eq_true, decide_eq_true_eq] at h
  obtain ⟨⟨⟨⟨⟨⟨⟨⟨⟨⟨h0, h1⟩, h2⟩, h3⟩, hd1⟩, h5⟩, h6⟩, hd2⟩, h8⟩, h9⟩, -⟩ := h
  intro x hx
  simp only [List.mem_cons, List.not_mem_nil, or_false] at hx
  rcases hx with rfl | rfl | rfl | rfl | rfl | rfl | rfl | rfl | rfl | rfl
  · exact digit_not_ws h0
  · exact digit_not_ws h1
  · exact digit_not_ws h2
  · exact digit_not_ws h3
  · rw [hd1]; decide
  · exact digit_not_ws h5
  · exact digit_not_ws h6
  · rw [hd2]; decide
  · exact digit_not_ws h8
  · exact digit_not_ws h9

theorem stripChars_pyStrip_data (s : String) :
    stripChars (pyStrip s).data = (pyStrip s).data := by
  unfold pyStrip
  rw [string_mk_data, stripChars_idem]

theorem normDateStr_shape (raw : String) (hfix : stripChars raw.data = raw.data) :
    normDateStr raw = PyVal.none ∨
    ∃ f : String, normDateStr raw = PyVal.str f ∧ stripChars f.data = f.data ∧ f ≠ "" ∧
      ('T' ∈ f.data ∨ ('T' ∉ f.data ∧ isValidIsoDateChars f.data = false)) := by
  unfold normDateStr
  by_cases h0 : raw = ""
  · rw [if_pos h0]; left; rfl
  · rw [if_neg h0]
    by_cases hT : 'T' ∈ raw.data
    · rw [if_pos hT]
      right
      exact ⟨raw, rfl, hfix, h0, Or.inl hT⟩
    · rw [if_neg hT]
      by_cases hiso : isValidIsoDateChars raw.data = true
      · rw [if_pos hiso]
        right
        refine ⟨raw ++ "T00:00:00", rfl, ?_, ?_, Or.inl ?_⟩
        · apply stripChars_eq_self
          exact nonws_append (validIso_nonws hiso) (by decide)
        · intro hcontra
          have := congrArg String.data hcontra
          rw [data_append] at this
          simp at this
        · rw [data_append, List.mem_append]
          right
          decide
      · rw [if_neg hiso]
        right
        refine ⟨raw, rfl, hfix, h0, Or.inr ⟨hT, by simpa using hiso⟩⟩

theorem normalize_date_shape (v : PyVal) :
    normalize_date v = PyVal.none ∨
    ∃ f : String, normalize_date v = PyVal.str f ∧ stripChars f.data = f.data ∧ f ≠ "" ∧
      ('T' ∈ f.data ∨ ('T' ∉ f.data ∧ isValidIsoDateChars f.data = false)) := by
  unfold normalize_date
  split
  · left; rfl
  · cases v with
    | datetime y m d hh mi ss =>
      right
      refine ⟨_, rfl, stripChars_eq_self (fmtDateTimeT_nonws y m d hh mi ss),
        str_ne_empty_of_mem (fmtDateTimeT_hasT y m d hh mi ss),
        Or.inl (fmtDateTimeT_hasT y m d hh mi ss)⟩
    | date y m d =>
      right
      have hT : 'T' ∈ (isoDate y m d ++ "T00:00:00").data := by
        rw [data_append, List.mem_append]
        right
        decide
      refine ⟨_, rfl, ?_, str_ne_empty_of_mem hT, Or.inl hT⟩
      exact stripChars_eq_self (nonws_append (isoDate_nonws y m d) (by decide))
    | none =>
      exact normDateStr_shape _ (stripChars_pyStrip_data _)
    | str s =>
      exact normDateStr_shape _ (stripChars_pyStrip_data _)
    | int n =>
      exact normDateStr_shape _ (stripChars_pyStrip_data _)
    | float q =>
      exact normDateStr_shape _ (stripChars_pyStrip_data _)
    | bool b =>
      exact normDateStr_shape _ (stripChars_pyStrip_data _)
    | dict d =>
      exact normDateStr_shape _ (stripChars_pyStrip_data _)

theorem normalize_date_idem (v : PyVal) :
    normalize_date (normalize_date v) = normalize_date v := by
  rcases normalize_date_shape v with h | ⟨f, h, hfix, hne, hcase⟩ <;> rw [h]
  · rfl
  · have hdata : f.data ≠ [] := fun hd => hne (by
      have := congrArg String.mk hd
      simpa [string_data_mk] using this)
    have hempty : isEmptyVal (PyVal.str f) = false := by
      simp [isEmptyVal, hfix, hdata]
    unfold normalize_date
    rw [hempty, if_neg Bool.false_ne_true]
    show normDateStr (pyStrip (pyStr (PyVal.str f))) = PyVal.str f
    have hps : pyStrip (pyStr (PyVal.str f)) = f := by
      show String.mk (stripChars f.data) = f
      rw [hfix, string_data_mk]
    rw [hps]
    unfold normDateStr
    rw [if_neg hne]
    rcases hcase with hT | ⟨hT, hiso⟩
    · rw [if_pos hT]
    · rw [if_neg hT, if_neg (by simp [hiso])]

/-- C6: For every supported field type (text, price, float, int, bool, date)
and every input valid for that type, normalization is idempotent:
`normalize(normalize(x)) == normalize(x)`. -/
theorem C6_normalize_idempotent (t : FieldType) (v : PyVal) :
    normalize_value t (normalize_value t v) = normalize_value t v := by
  cases t with
  | text => exact normalize_text_idem v
  | price => exact normalize_float_idem v
  | float => exact normalize_float_idem v
  | int => exact normalize_int_idem v
  | bool => exact normalize_bool_idem v
  | date => exact normalize_date_idem v

/-! ## Infrastructure: lookup after `setKey` / `eraseKey` -/

theorem lookup_eraseKey_self {α : Type} (l : List (String × α)) (k : String) :
    List.lookup k (eraseKey l k) = Option.none := by
  induction l with
  | nil => rfl
  | cons p rest ih =>
    rw [eraseKey, List.filter_cons]
    by_cases h : p.1 = k
    · rw [if_neg (by simp [h])]
      exact ih
    · rw [if_pos (by simp [h])]
      cases p with
      | mk k0 v0 =>
        rw [List.lookup_cons]
        have : (k == k0) = false := by
          simp only [ne_eq] at h
          simp [beq_iff_eq]
          exact fun hc => h hc.symm
        rw [this]
        exact ih

theorem lookup_eraseKey_ne {α : Type} (l : List (String × α)) {k k' : String}
    (h : k' ≠ k) : List.lookup k' (eraseKey l k) = List.lookup k' l := by
  induction l with
  | nil => rfl
  | cons p rest ih =>
    cases p with
    | mk k0 v0 =>
      rw [eraseKey, List.filter_cons]
      by_cases h0 : k0 = k
      · rw [if_neg (by simp [h0])]
        rw [List.lookup_cons]
        have : (k' == k0) = false := by
          simp [beq_iff_eq]
          intro hc
          exact h (hc.trans h0)
        rw [this]
        exact ih
      · rw [if_pos (by simp [h0])]
        rw [List.lookup_cons, List.lookup_cons]
        cases hbeq : (k' == k0) with
        | true => rfl
        | false => exact ih

theorem lookup_map_replace {α : Type} (l : List (String × α)) (k : String) (v : α) :
    List.lookup k (l.map (fun p => if p.1 = k then (k, v) else p)) =
      if (List.lookup k l).isSome then some v else Option.none := by
  induction l with
  | nil => rfl
  | cons p rest ih =>
    cases p with
    | mk k0 v0 =>
      rw [List.map_cons]
      by_cases h0 : k0 = k
      · subst h0
        have hhead : (if (k0, v0).1 = k0 then (k0, v) else (k0, v0)) = (k0, v) := by simp
        rw [hhead, List.lookup_cons, List.lookup_cons]
        have hbeq : (k0 == k0) = true := by simp
        rw [hbeq]
        rfl
      · rw [if_neg (by simpa using h0)]
        rw [List.lookup_cons, List.lookup_cons]
        have hbeq : (k == k0) = false := by
          simp [beq_iff_eq]
          exact fun hc => h0 hc.symm
        rw [hbeq]
        exact ih

theorem lookup_append_single {α : Type} {l : List (String × α)} {k : String} (v : α)
    (h : List.lookup k l = Option.none) : List.lookup k (l ++ [(k, v)]) = some v := by
  induction l with
  | nil =>
    rw [List.nil_append, List.lookup_cons]
    have : (k == k) = true := by simp
    rw [this]
  | cons p rest ih =>
    cases p with
    | mk k0 v0 =>
      rw [List.lookup_cons] at h
      rw [List.cons_append, List.lookup_cons]
      cases hbeq : (k == k0) with
      | true => rw [hbeq] at h; cases h
      | false =>
        rw [hbeq] at h
        exact ih h

theorem lookup_setKey_self {α : Type} (l : List (String × α)) (k : String) (v : α) :
    List.lookup k (setKey l k v) = some v := by
  rw [setKey]
  by_cases hp : (List.lookup k l).isSome
  · rw [if_pos hp, lookup_map_replace, if_pos hp]
  · rw [if_neg hp]
    apply lookup_append_single
    cases h : List.lookup k l with
    | none => rfl
    | some w => rw [h] at hp; simp at hp

theorem lookup_map_replace_ne {α : Type} (l : List (String × α)) {k k' : String} (v : α)
    (h : k' ≠ k) :
    List.lookup k' (l.map (fun p => if p.1 = k then (k, v) else p)) = List.lookup k' l := by
  induction l with
  | nil => rfl
  | cons p rest ih =>
    cases p with
    | mk k0 v0 =>
      rw [List.map_cons]
      by_cases h0 : k0 = k
      · subst h0
        have hhead : (if (k0, v0).1 = k0 then (k0, v) else (k0, v0)) = (k0, v) := by simp
        rw [hhead, List.lookup_cons, List.lookup_cons]
        have hbeq : (k' == k0) = false := by
          simp [beq_iff_eq]
          exact h
        rw [hbeq]
        exact ih
      · rw [if_neg (by simpa using h0)]
        rw [List.lookup_cons, List.lookup_cons]
        cases hbeq : (k' == k0) with
        | true => rfl
        | false => exact ih

theorem lookup_append_single_ne {α : Type} (l : List (String × α)) {k k' : String} (v : α)
    (h : k' ≠ k) : List.lookup k' (l ++ [(k, v)]) = List.lookup k' l := by
  induction l with
  | nil =>
    rw [List.nil_append, List.lookup_cons]
    have hbeq : (k' == k) = false := by
      simp [beq_iff_eq]
      exact h
    rw [hbeq]
  | cons p rest ih =>
    cases p with
    | mk k0 v0 =>
      rw [List.cons_append, List.lookup_cons, List.lookup_cons]
      cases hbeq : (k' == k0) with
      | true => rfl
      | false => exact ih

theorem lookup_setKey_ne {α : Type} (l : List (String × α)) {k k' : String} (v : α)
    (h : k' ≠ k) : List.lookup k' (setKey l k v) = List.lookup k' l := by
  rw [setKey]
  by_cases hp : (List.lookup k l).isSome
  · rw [if_pos hp]
    exact lookup_map_replace_ne l v h
  · rw [if_neg hp]
    exact lookup_append_single_ne l v h

/-! ## The save pipeline: per-key characterization (claims C5, C9) -/

theorem lookup_foldl_eraseKey {α : Type} (keys : List String) (e : List (String × α))
    (k : String) :
    List.lookup k (keys.foldl eraseKey e) =
      if k ∈ keys then Option.none else List.lookup k e := by
  induction keys generalizing e with
  | nil => simp
  | cons k0 rest ih =>
    rw [List.foldl_cons, ih]
    by_cases hk : k ∈ rest
    · rw [if_pos hk, if_pos (by simp [hk])]
    · rw [if_neg hk]
      by_cases hk0 : k = k0
      · subst hk0
        rw [if_pos (by simp), lookup_eraseKey_self]
      · rw [if_neg (by simp [hk0, hk]), lookup_eraseKey_ne _ hk0]

theorem saveField_lookup_ne (raw : RawRecord) (row : String → PyVal) (e : Edits)
    (spec : String × FieldType) {k : String} (h : spec.1 ≠ k) :
    List.lookup k (saveField raw row e spec) = List.lookup k e := by
  unfold saveField
  dsimp only
  split
  · exact lookup_eraseKey_ne _ (Ne.symm h)
  · exact lookup_setKey_ne _ _ (Ne.symm h)

theorem saveField_lookup_self (raw : RawRecord) (row : String → PyVal) (e : Edits)
    (k : String) (t : FieldType) :
    List.lookup k (saveField raw row e (k, t)) =
      List.lookup k (saveField raw row [] (k, t)) := by
  unfold saveField
  dsimp only
  by_cases hC : fieldNew raw row k t = PyVal.none ∨
      fieldNew raw row k t = normalize_value t (get_raw_value raw k)
  · rw [if_pos hC, if_pos hC, lookup_eraseKey_self, lookup_eraseKey_self]
  · rw [if_neg hC, if_neg hC, lookup_setKey_self, lookup_setKey_self]

theorem saveField_nil_lookup (raw : RawRecord) (row : String → PyVal)
    (k : String) (t : FieldType) :
    List.lookup k (saveField raw row [] (k, t)) =
      if fieldNew raw row k t = PyVal.none ∨
         fieldNew raw row k t = normalize_value t (get_raw_value raw k)
      then Option.none else some (fieldNew raw row k t) := by
  unfold saveField
  dsimp only
  by_cases hC : fieldNew raw row k t = PyVal.none ∨
      fieldNew raw row k t = normalize_value t (get_raw_value raw k)
  · rw [if_pos hC, if_pos hC]
    rfl
  · rw [if_neg hC, if_neg hC, lookup_setKey_self]

theorem fieldLoop_lookup_not_mem (raw : RawRecord) (row : String → PyVal)
    (specs : List (String × FieldType)) (e : Edits) {k : String}
    (h : k ∉ specs.map Prod.fst) :
    List.lookup k (specs.foldl (saveField raw row) e) = List.lookup k e := by
  induction specs generalizing e with
  | nil => rfl
  | cons sp rest ih =>
    rw [List.foldl_cons]
    rw [ih _ (fun hm => h (by rw [List.map_cons]; exact List.mem_cons_of_mem _ hm))]
    exact saveField_lookup_ne raw row e sp
      (fun hc => h (by rw [List.map_cons, hc]; exact List.mem_cons_self _ _))

theorem fieldLoop_lookup_mem (raw : RawRecord) (row : String → PyVal)
    (specs : List (String × FieldType)) (e : Edits) {k : String} {t : FieldType}
    (hnd : (specs.map Prod.fst).Nodup) (hmem : (k, t) ∈ specs) :
    List.lookup k (specs.foldl (saveField raw row) e) =
      List.lookup k (saveField raw row [] (k, t)) := by
  induction specs generalizing e with
  | nil => cases hmem
  | cons sp rest ih =>
    rw [List.foldl_cons]
    rcases List.mem_cons.mp hmem with heq | hmem'
    · subst heq
      have hk : k ∉ rest.map Prod.fst := by
        rw [List.map_cons] at hnd
        exact (List.nodup_cons.mp hnd).1
      rw [fieldLoop_lookup_not_mem raw row rest _ hk]
      exact saveField_lookup_self raw row e k t
    · have hnd' : (rest.map Prod.fst).Nodup := by
        rw [List.map_cons] at hnd
        exact (List.nodup_cons.mp hnd).2
      exact ih _ hnd' hmem'

theorem lookup_priceStep (raw : RawRecord) (e : Edits) (k : String) :
    List.lookup k (priceStep raw e).1 = List.lookup k e ∨
    List.lookup k (priceStep raw e).1 = Option.none := by
  unfold priceStep
  split
  · dsimp only
    split
    · dsimp only
      rw [lookup_foldl_eraseKey]
      by_cases hk : k ∈ priceValKeys
      · right; rw [if_pos hk]
      · left; rw [if_neg hk]
    · left; rfl
  · left; rfl

theorem lookup_stockGate (raw : RawRecord) (e : Edits) (k : String) :
    List.lookup k (stockGate raw e).1 = List.lookup k e ∨
    List.lookup k (stockGate raw e).1 = Option.none := by
  unfold stockGate
  split
  · split
    · dsimp only
      by_cases hk : k = "stock_quantity"
      · subst hk
        right
        exact lookup_eraseKey_self _ _
      · left
        exact lookup_eraseKey_ne _ hk
    · left; rfl
  · left; rfl

theorem saveRow_lookup_cases (raw : RawRecord) (row : String → PyVal) (edits : Edits)
    {k : String} {t : FieldType} (hmem : (k, t) ∈ WC_EDIT_SPECS) :
    List.lookup k (saveRow raw row edits).1 = Option.none ∨
    List.lookup k (saveRow raw row edits).1 =
      List.lookup k (saveField raw row [] (k, t)) := by
  have hnd : (WC_EDIT_SPECS.map Prod.fst).Nodup := by decide
  have hfl := fieldLoop_lookup_mem raw row WC_EDIT_SPECS edits hnd hmem
  unfold saveRow
  dsimp only
  rcases lookup_stockGate raw (priceStep raw (fieldLoop raw row edits)).1 k with h1 | h1
  · rw [h1]
    rcases lookup_priceStep raw (fieldLoop raw row edits) k with h2 | h2
    · rw [h2]
      right
      exact hfl
    · rw [h2]
      left; rfl
  · rw [h1]
    left; rfl

/-- C5: After every save of the edit grid, for every item and editable
field, the persisted edit set never holds a value equal to the normalized
Raw Snapshot baseline for that field, and a submitted value that normalizes
to absent removes the key instead of being stored. -/
theorem C5_diff_minimality (raw : RawRecord) (row : String → PyVal) (edits : Edits)
    (k : String) (t : FieldType) (hmem : (k, t) ∈ WC_EDIT_SPECS) :
    (∀ v : PyVal, List.lookup k (saveRow raw row edits).1 = some v →
        v ≠ normalize_value t (get_raw_value raw k)) ∧
    (normalize_value t (row k) = PyVal.none →
        List.lookup k (saveRow raw row edits).1 = Option.none) := by
  constructor
  · intro v hv hcontra
    rcases saveRow_lookup_cases raw row edits hmem with h | h
    · rw [h] at hv
      cases hv
    · rw [h, saveField_nil_lookup] at hv
      by_cases hC : fieldNew raw row k t = PyVal.none ∨
          fieldNew raw row k t = normalize_value t (get_raw_value raw k)
      · rw [if_pos hC] at hv
        cases hv
      · rw [if_neg hC] at hv
        injection hv with hv
        exact hC (Or.inr (by rw [hv, hcontra]))
  · intro hsub
    have hnew : fieldNew raw row k t = PyVal.none := by
      unfold fieldNew
      dsimp only
      rw [if_neg]
      · exact hsub
      · intro hc
        rw [hsub] at hc
        cases hc.2.2
    rcases saveRow_lookup_cases raw row edits hmem with h | h
    · exact h
    · rw [h, saveField_nil_lookup, if_pos (Or.inl hnew)]

/-- C9: In the bulk-edit save, a bool-typed editable field whose baseline
resolves to absent never records a pending edit for a submitted value that
normalizes to explicit `False`. -/
theorem C9_explicit_false_over_absent (raw : RawRecord) (row : String → PyVal)
    (edits : Edits) (k : String) (hmem : (k, FieldType.bool) ∈ WC_EDIT_SPECS)
    (hbase : normalize_value FieldType.bool (get_raw_value raw k) = PyVal.none)
    (hsub : normalize_value FieldType.bool (row k) = PyVal.bool false) :
    List.lookup k (saveRow raw row edits).1 = Option.none := by
  have hnew : fieldNew raw row k FieldType.bool = PyVal.none := by
    unfold fieldNew
    dsimp only
    rw [if_pos ⟨rfl, hbase, hsub⟩]
  rcases saveRow_lookup_cases raw row edits hmem with h | h
  · exact h
  · rw [h, saveField_nil_lookup, if_pos (Or.inl hnew)]

/-! ## Price validation and stock gate (claims C3, C4) -/

/-- C3: When an edit set touches `regular_price` or `sale_price` and the
effective sale price exceeds the effective regular price, validation drops
the four price-related keys, keeps every other key, and flags the item as a
price-validation failure (`invalid_price_rows` in `app.py`). -/
theorem C3_price_order_rejection (raw : RawRecord) (edits : Edits)
    (htouch : (List.lookup "regular_price" edits).isSome ∨
              (List.lookup "sale_price" edits).isSome)
    (qr qs : ℚ)
    (hr : effPrice raw edits "regular_price" = PyVal.float qr)
    (hs : effPrice raw edits "sale_price" = PyVal.float qs)
    (hlt : qr < qs) :
    (priceStep raw edits).2 = true ∧
    (∀ k ∈ priceValKeys, List.lookup k (priceStep raw edits).1 = Option.none) ∧
    (∀ k : String, k ∉ priceValKeys →
        List.lookup k (priceStep raw edits).1 = List.lookup k edits) := by
  have hgate : effPrice raw edits "regular_price" ≠ PyVal.none ∧
      effPrice raw edits "sale_price" ≠ PyVal.none ∧
      pyGt (effPrice raw edits "sale_price") (effPrice raw edits "regular_price") = true := by
    refine ⟨(by rw [hr]; intro hc; cases hc), (by rw [hs]; intro hc; cases hc), ?_⟩
    rw [hr, hs]
    simp only [pyGt, pyNumVal, decide_eq_true_eq]
    exact hlt
  have hps : priceStep raw edits = (priceValKeys.foldl eraseKey edits, true) := by
    unfold priceStep
    rw [if_pos htouch]
    dsimp only
    rw [if_pos hgate]
  rw [hps]
  refine ⟨rfl, ?_, ?_⟩
  · intro k hk
    exact (lookup_foldl_eraseKey priceValKeys edits k).trans (if_pos hk)
  · intro k hk
    exact (lookup_foldl_eraseKey priceValKeys edits k).trans (if_neg hk)

/-- C4: A `stock_quantity` edit without a `manage_stock` edit is removed and
flagged when the baseline `manage_stock` does not normalize to `True`; an
edit set that also sets `manage_stock` (in particular to `True`) passes the
gate untouched, retaining `stock_quantity`. -/
theorem C4_stock_gate (raw : RawRecord) (edits : Edits) :
    ((List.lookup "stock_quantity" edits).isSome →
      List.lookup "manage_stock" edits = Option.none →
      normalize_value FieldType.bool (get_raw_value raw "manage_stock") ≠ PyVal.bool true →
      stockGate raw edits = (eraseKey edits "stock_quantity", true) ∧
        List.lookup "stock_quantity" (stockGate raw edits).1 = Option.none) ∧
    (List.lookup "manage_stock" edits = some (PyVal.bool true) →
      stockGate raw edits = (edits, false)) := by
  constructor
  · intro hq hm hb
    have heq : stockGate raw edits = (eraseKey edits "stock_quantity", true) := by
      unfold stockGate
      rw [if_pos ⟨hq, by rw [hm]; rfl⟩, if_pos hb]
    refine ⟨heq, ?_⟩
    rw [heq]
    exact lookup_eraseKey_self _ _
  · intro hm
    have hcond : ¬ ((List.lookup "stock_quantity" edits).isSome = true ∧
        (List.lookup "manage_stock" edits).isNone = true) := by
      rintro ⟨-, hnone⟩
      rw [hm] at hnone
      cases hnone
    unfold stockGate
    rw [if_neg hcond]

def rawC3 : RawRecord := [("regular_price", PyVal.float 10), ("sale_price", PyVal.float 5)]
def editsC3 : Edits := [("sale_price", PyVal.float 12)]

theorem C3_witness :
    (((List.lookup "regular_price" editsC3).isSome ∨
      (List.lookup "sale_price" editsC3).isSome) ∧
     effPrice rawC3 editsC3 "regular_price" = PyVal.float 10 ∧
     effPrice rawC3 editsC3 "sale_price" = PyVal.float 12 ∧ (10 : ℚ) < 12) ∧
    (priceStep rawC3 editsC3).2 = true ∧
    List.lookup "sale_price" (priceStep rawC3 editsC3).1 = Option.none ∧
    List.lookup "regular_price" (priceStep rawC3 editsC3).1 = Option.none ∧
    List.lookup "date_on_sale_from" (priceStep rawC3 editsC3).1 = Option.none :=
  ⟨⟨Or.inr (by decide), by decide, by decide, by decide⟩,
   (C3_price_order_rejection rawC3 editsC3 (Or.inr (by decide)) 10 12
      (by decide) (by decide) (by decide)).1,
   (C3_price_order_rejection rawC3 editsC3 (Or.inr (by decide)) 10 12
      (by decide) (by decide) (by decide)).2.1 "sale_price" (by decide),
   (C3_price_order_rejection rawC3 editsC3 (Or.inr (by decide)) 10 12
      (by decide) (by decide) (by decide)).2.1 "regular_price" (by decide),
   (C3_price_order_rejection rawC3 editsC3 (Or.inr (by decide)) 10 12
      (by decide) (by decide) (by decide)).2.1 "date_on_sale_from" (by decide)⟩

def rawC4 : RawRecord := [("manage_stock", PyVal.bool false)]
def editsC4 : Edits := [("stock_quantity", PyVal.int 7)]
def editsC4b : Edits := [("stock_quantity", PyVal.int 7), ("manage_stock", PyVal.bool true)]

theorem C4_witness :
    ((List.lookup "stock_quantity" editsC4).isSome ∧
     List.lookup "manage_stock" editsC4 = Option.none ∧
     normalize_value FieldType.bool (get_raw_value rawC4 "manage_stock") ≠ PyVal.bool true ∧
     stockGate rawC4 editsC4 = (eraseKey editsC4 "stock_quantity", true) ∧
     List.lookup "stock_quantity" (stockGate rawC4 editsC4).1 = Option.none) ∧
    (List.lookup "manage_stock" editsC4b = some (PyVal.bool true) ∧
     stockGate rawC4 editsC4b = (editsC4b, false) ∧
     List.lookup "stock_quantity" (stockGate rawC4 editsC4b).1 = some (PyVal.int 7)) :=
  ⟨⟨by decide, by decide, by decide,
    ((C4_stock_gate rawC4 editsC4).1 (by decide) (by decide) (by decide)).1,
    ((C4_stock_gate rawC4 editsC4).1 (by decide) (by decide) (by decide)).2⟩,
   ⟨by decide, (C4_stock_gate rawC4 editsC4b).2 (by decide), by
      rw [(C4_stock_gate rawC4 editsC4b).2 (by decide)]
      decide⟩⟩

def rawC5 : RawRecord := [("name", PyVal.str "Alpha")]
def rowC5 : String → PyVal := fun k => if k = "name" then PyVal.str "   " else PyVal.none
def editsC5 : Edits := [("name", PyVal.str "Beta")]

theorem C5_witness :
    ("name", FieldType.text) ∈ WC_EDIT_SPECS ∧
    normalize_value FieldType.text (rowC5 "name") = PyVal.none ∧
    List.lookup "name" (saveRow rawC5 rowC5 editsC5).1 = Option.none :=
  ⟨by decide, by decide,
   (C5_diff_minimality rawC5 rowC5 editsC5 "name" FieldType.text (by decide)).2 (by decide)⟩

def rawC9 : RawRecord := [("name", PyVal.str "A")]
def rowC9 : String → PyVal :=
  fun k => if k = "manage_stock" then PyVal.bool false else PyVal.none

theorem C9_witness :
    ("manage_stock", FieldType.bool) ∈ WC_EDIT_SPECS ∧
    normalize_value FieldType.bool (get_raw_value rawC9 "manage_stock") = PyVal.none ∧
    normalize_value FieldType.bool (rowC9 "manage_stock") = PyVal.bool false ∧
    List.lookup "manage_stock" (saveRow rawC9 rowC9 []).1 = Option.none :=
  ⟨by decide, by decide, by decide,
   C9_explicit_false_over_absent rawC9 rowC9 [] "manage_stock"
     (by decide) (by decide) (by decide)⟩

/-! ## Registry lookup refinement (claim C7) -/

theorem get_eq_resolve_plain (raw : RawRecord) (key : String)
    (hd : isDimsKey key = false) : get_raw_value raw key = resolveSpec raw key := by
  unfold get_raw_value resolveSpec
  rw [hd, if_neg Bool.false_ne_true, if_neg Bool.false_ne_true]

theorem scanAliases_cons (raw : RawRecord) (a : String) (rest : List String) :
    scanAliases raw (a :: rest) =
      match List.lookup a raw with
      | some v => v
      | Option.none => scanAliases raw rest := rfl

theorem fallback_eq (raw : RawRecord) (key : String) (rest : List String)
    (hal : WC_FIELD_ALIASES key = key :: rest) :
    (match List.lookup key raw with
     | some v => v
     | Option.none => scanAliases raw (WC_FIELD_ALIASES key)) =
      scanAliases raw (WC_FIELD_ALIASES key) := by
  rw [hal, scanAliases_cons]
  cases h : List.lookup key raw with
  | none => rfl
  | some v => rfl

theorem get_eq_resolve_dims (raw : RawRecord) (key : String)
    (hd : isDimsKey key = true) (rest : List String)
    (hal : WC_FIELD_ALIASES key = key :: rest) :
    get_raw_value raw key = resolveSpec raw key := by
  unfold get_raw_value resolveSpec
  rw [hd, if_pos rfl, if_pos rfl]
  cases hD : (match List.lookup "dimensions" raw with
              | some (PyVal.dict d) => (List.lookup (dimsPart key) d).map PyLeaf.toVal
              | _ => Option.none) with
  | some v => rfl
  | none => exact fallback_eq raw key rest hal

/-- C7: For every raw record and registry key, `get_raw_value` tries the
canonical key first (through one level of sub-mapping for dotted keys),
then each declared alias in declared order, and returns the first *present*
value — so a key bound to an explicit null stops the alias scan (and
returns the null), distinguishing present-with-null from not-found. -/
theorem C7_registry_lookup :
    (∀ (raw : RawRecord) (key : String), key ∈ registryKeys →
        get_raw_value raw key = resolveSpec raw key) ∧
    (∀ (raw : RawRecord) (key : String), isDimsKey key = false →
        List.lookup key raw = some PyVal.none →
        get_raw_value raw key = PyVal.none) := by
  constructor
  · intro raw key hmem
    by_cases hd : isDimsKey key = true
    · have hkey : key = "dimensions.length" ∨ key = "dimensions.width" ∨
          key = "dimensions.height" := by
        simp only [registryKeys, List.mem_cons, List.not_mem_nil, or_false] at hmem
        rcases hmem with rfl | rfl | rfl | rfl | rfl | rfl | rfl | rfl | rfl | rfl |
          rfl | rfl | rfl | rfl <;>
          first
            | (left; rfl)
            | (right; left; rfl)
            | (right; right; rfl)
            | (exact absurd hd (by decide))
      rcases hkey with rfl | rfl | rfl
      · exact get_eq_resolve_dims raw _ (by decide) ["Ilgis"] (by decide)
      · exact get_eq_resolve_dims raw _ (by decide) ["Plotis"] (by decide)
      · exact get_eq_resolve_dims raw _ (by decide) ["Aukštis"] (by decide)
    · exact get_eq_resolve_plain raw key (by simpa using hd)
  · intro raw key hd hlk
    unfold get_raw_value
    rw [hd, if_neg Bool.false_ne_true, hlk]

def rawC7 : RawRecord := [("name", PyVal.none), ("Pavadinimas", PyVal.str "X")]

theorem C7_witness :
    ("name" ∈ registryKeys ∧ isDimsKey "name" = false ∧
      List.lookup "name" rawC7 = some PyVal.none) ∧
    get_raw_value rawC7 "name" = resolveSpec rawC7 "name" ∧
    get_raw_value rawC7 "name" = PyVal.none :=
  ⟨⟨by decide, by decide, by decide⟩,
   C7_registry_lookup.1 rawC7 "name" (by decide),
   C7_registry_lookup.2 rawC7 "name" (by decide) (by decide)⟩

/-! ## Batch commit loop (claims C1, C2) -/

theorem baseRawFor_congr {s s' : SyncState} {i : Int} (h : s'.raws i = s.raws i) :
    baseRawFor s' i = baseRawFor s i := by
  unfold baseRawFor
  rw [h]

theorem commitOne_other {s s' : SyncState} {j : Int} {e : Edits} {i : Int}
    (hne : j ≠ i) (h : commitOne s j e = some s') :
    s'.raws i = s.raws i ∧ s'.edits i = s.edits i := by
  unfold commitOne at h
  cases happ : applyEditsToRaw (baseRawFor s j) e with
  | none => rw [happ] at h; cases h
  | some r =>
    rw [happ] at h
    injection h with h
    subst h
    constructor
    · show (if i = j then some r else s.raws i) = s.raws i
      rw [if_neg (Ne.symm hne)]
    · show (if i = j then Option.none else s.edits i) = s.edits i
      rw [if_neg (Ne.symm hne)]

theorem commitOne_self {s s' : SyncState} {i : Int} {e : Edits}
    (h : commitOne s i e = some s') :
    ∃ r, applyEditsToRaw (baseRawFor s i) e = some r ∧
      s'.raws i = some r ∧ s'.edits i = Option.none := by
  unfold commitOne at h
  cases happ : applyEditsToRaw (baseRawFor s i) e with
  | none => rw [happ] at h; cases h
  | some r =>
    rw [happ] at h
    injection h with h
    subst h
    refine ⟨r, rfl, ?_, ?_⟩
    · show (if i = i then some r else s.raws i) = some r
      rw [if_pos rfl]
    · show (if i = i then Option.none else s.edits i) = Option.none
      rw [if_pos rfl]

theorem runCommits_skip (items : List RespEntry) {i : Int}
    (hcc : commitCond items i = false) :
    ∀ (meta : List (Int × Edits)) (s s' : SyncState),
      runCommits items s meta = some s' →
      s'.raws i = s.raws i ∧ s'.edits i = s.edits i := by
  intro meta
  induction meta with
  | nil =>
    intro s s' h
    injection h with h
    subst h
    exact ⟨rfl, rfl⟩
  | cons p rest ih =>
    intro s s' h
    obtain ⟨j, e⟩ := p
    simp only [runCommits] at h
    by_cases hj : commitCond items j = true
    · rw [if_pos hj] at h
      cases hco : commitOne s j e with
      | none => rw [hco] at h; cases h
      | some s1 =>
        rw [hco] at h
        by_cases hji : j = i
        · subst hji
          rw [hj] at hcc
          cases hcc
        · obtain ⟨h1, h2⟩ := commitOne_other hji hco
          obtain ⟨h3, h4⟩ := ih s1 s' h
          exact ⟨h3.trans h1, h4.trans h2⟩
    · rw [if_neg hj] at h
      exact ih s s' h

theorem runCommits_not_mem (items : List RespEntry) {i : Int} :
    ∀ (meta : List (Int × Edits)) (s s' : SyncState),
      (∀ p ∈ meta, p.1 ≠ i) →
      runCommits items s meta = some s' →
      s'.raws i = s.raws i ∧ s'.edits i = s.edits i := by
  intro meta
  induction meta with
  | nil =>
    intro s s' _ h
    injection h with h
    subst h
    exact ⟨rfl, rfl⟩
  | cons p rest ih =>
    intro s s' hout h
    obtain ⟨j, e⟩ := p
    simp only [runCommits] at h
    have hji : j ≠ i := hout (j, e) (List.mem_cons_self _ _)
    have hout' : ∀ p ∈ rest, p.1 ≠ i := fun p hp => hout p (List.mem_cons_of_mem _ hp)
    by_cases hj : commitCond items j = true
    · rw [if_pos hj] at h
      cases hco : commitOne s j e with
      | none => rw [hco] at h; cases h
      | some s1 =>
        rw [hco] at h
        obtain ⟨h1, h2⟩ := commitOne_other hji hco
        obtain ⟨h3, h4⟩ := ih s1 s' hout' h
        exact ⟨h3.trans h1, h4.trans h2⟩
    · rw [if_neg hj] at h
      exact ih s s' hout' h

theorem runCommits_commit (items : List RespEntry) {i : Int} {e : Edits}
    (hcc : commitCond items i = true) :
    ∀ (meta : List (Int × Edits)) (s s' : SyncState),
      (meta.map Prod.fst).Nodup → (i, e) ∈ meta →
      runCommits items s meta = some s' →
      ∃ r, applyEditsToRaw (baseRawFor s i) e = some r ∧
        s'.raws i = some r ∧ s'.edits i = Option.none := by
  intro meta
  induction meta with
  | nil =>
    intro s s' _ hmem _
    cases hmem
  | cons p rest ih =>
    intro s s' hnd hmem h
    obtain ⟨j, e'⟩ := p
    simp only [runCommits] at h
    have hnd' : (rest.map Prod.fst).Nodup := by
      rw [List.map_cons] at hnd
      exact (List.nodup_cons.mp hnd).2
    rcases List.mem_cons.mp hmem with heq | hmem'
    · injection heq with heq1 heq2
      subst heq1
      subst heq2
      rw [if_pos hcc] at h
      cases hco : commitOne s i e with
      | none => rw [hco] at h; cases h
      | some s1 =>
        rw [hco] at h
        obtain ⟨r, hr1, hr2, hr3⟩ := commitOne_self hco
        have hrest : ∀ p ∈ rest, p.1 ≠ i := by
          intro p hp hpi
          rw [List.map_cons] at hnd
          have hmm : p.1 ∈ rest.map Prod.fst := List.mem_map_of_mem Prod.fst hp
          rw [hpi] at hmm
          exact (List.nodup_cons.mp hnd).1 hmm
        obtain ⟨h3, h4⟩ := runCommits_not_mem items rest s1 s' hrest h
        exact ⟨r, hr1, h3.trans hr2, h4.trans hr3⟩
    · have hji : j ≠ i := by
        intro hc
        rw [List.map_cons] at hnd
        apply (List.nodup_cons.mp hnd).1
        rw [hc]
        have hmm : (i, e).1 ∈ rest.map Prod.fst := List.mem_map_of_mem Prod.fst hmem'
        exact hmm
      by_cases hj : commitCond items j = true
      · rw [if_pos hj] at h
        cases hco : commitOne s j e' with
        | none => rw [hco] at h; cases h
        | some s1 =>
          rw [hco] at h
          obtain ⟨h1, h2⟩ := commitOne_other hji hco
          obtain ⟨r, hr1, hr2, hr3⟩ := ih s1 s' hnd' hmem' h
          rw [baseRawFor_congr h1] at hr1
          exact ⟨r, hr1, hr2, hr3⟩
      · rw [if_neg hj] at h
        exact ih s s' hnd' hmem' h

/-- C2: In a flushed batch, an item confirmed as a success has the sent edit
values merged into its Raw Snapshot (via `_apply_edits_to_raw`, the exact
wire coercions) and its Local Edit Store entry removed — under the app-side
invariant that every stored edit key is a registered editable field with a
non-`None` value, the removed entry consists of exactly the sent keys; an
item answered with a structured error keeps its snapshot and pending edits
untouched and its failure reason appears in the run's report. -/
theorem C2_partial_success (s : SyncState) (meta : List (Int × Edits))
    (items : List RespEntry) (hnd : (meta.map Prod.fst).Nodup)
    (i : Int) (e : Edits) (hmem : (i, e) ∈ meta)
    (hwf : ∀ p ∈ e, p.1 ∈ wcEditFieldKeys ∧ p.2 ≠ PyVal.none)
    (s' : SyncState) (reps : List (Int × String))
    (hrun : flush_batch s meta items = some (s', reps)) :
    (i ∈ succIds items → ¬ i ∈ errIds items →
      (∃ r, applyEditsToRaw (baseRawFor s i) e = some r ∧ s'.raws i = some r) ∧
      s'.edits i = Option.none) ∧
    (∀ msg, RespEntry.err i msg ∈ items →
      s'.raws i = s.raws i ∧ s'.edits i = s.edits i ∧ (i, msg) ∈ reps) := by
  unfold flush_batch at hrun
  cases hrc : runCommits items s meta with
  | none => rw [hrc] at hrun; cases hrun
  | some s1 =>
    rw [hrc] at hrun
    injection hrun with hrun
    injection hrun with hrun1 hrun2
    subst hrun1
    subst hrun2
    constructor
    · intro hsucc herr
      have hA : items.isEmpty = false := by
        cases items with
        | nil => cases hsucc
        | cons a rest => rfl
      have hcc : commitCond items i = true := by
        unfold commitCond
        rw [hA, if_neg Bool.false_ne_true, if_neg herr,
          if_neg (fun hand => hand.2 hsucc)]
      obtain ⟨r, hr1, hr2, hr3⟩ := runCommits_commit items hcc meta s s1 hnd hmem hrc
      exact ⟨⟨r, hr1, hr2⟩, hr3⟩
    · intro msg hmsg
      have herrmem : i ∈ errIds items := by
        unfold errIds
        exact List.mem_filterMap.mpr ⟨RespEntry.err i msg, hmsg, rfl⟩
      have hA : items.isEmpty = false := by
        cases items with
        | nil => cases hmsg
        | cons a rest => rfl
      have hccf : commitCond items i = false := by
        unfold commitCond
        rw [hA, if_neg Bool.false_ne_true, if_pos herrmem]
      obtain ⟨h1, h2⟩ := runCommits_skip items hccf meta s s1 hrc
      refine ⟨h1, h2, ?_⟩
      unfold errReports
      exact List.mem_filterMap.mpr ⟨RespEntry.err i msg, hmsg, rfl⟩

def s0C2 : SyncState where
  raws := fun i =>
    if i = 1 then some [("name", PyVal.str "A"), ("id", PyVal.int 1)]
    else if i = 2 then some [("name", PyVal.str "B"), ("id", PyVal.int 2)]
    else Option.none
  edits := fun i =>
    if i = 1 then some [("name", PyVal.str "A2")]
    else if i = 2 then some [("name", PyVal.str "B2")]
    else Option.none

def metaC2 : List (Int × Edits) :=
  [(1, [("name", PyVal.str "A2")]), (2, [("name", PyVal.str "B2")])]

def itemsC2 : List RespEntry := [RespEntry.ok 1, RespEntry.err 2 "dup sku"]

def s1C2 : SyncState where
  raws := upd s0C2.raws 1 (some [("name", PyVal.str "A2"), ("id", PyVal.int 1)])
  edits := upd s0C2.edits 1 Option.none

theorem C2_witness :
    ((metaC2.map Prod.fst).Nodup ∧
     ((1 : Int), [("name", PyVal.str "A2")]) ∈ metaC2 ∧
     (∀ p ∈ [("name", PyVal.str "A2")], p.1 ∈ wcEditFieldKeys ∧ p.2 ≠ PyVal.none) ∧
     flush_batch s0C2 metaC2 itemsC2 = some (s1C2, [((2 : Int), "dup sku")]) ∧
     (1 : Int) ∈ succIds itemsC2 ∧ ¬ (1 : Int) ∈ errIds itemsC2 ∧
     RespEntry.err 2 "dup sku" ∈ itemsC2) ∧
    ((∃ r, applyEditsToRaw (baseRawFor s0C2 1) [("name", PyVal.str "A2")] = some r ∧
        s1C2.raws 1 = some r) ∧ s1C2.edits 1 = Option.none) ∧
    (s1C2.raws 2 = s0C2.raws 2 ∧ s1C2.edits 2 = s0C2.edits 2 ∧
      ((2 : Int), "dup sku") ∈ [((2 : Int), "dup sku")]) :=
  ⟨⟨by decide, by decide, by decide, rfl, by decide, by decide, by decide⟩,
   (C2_partial_success s0C2 metaC2 itemsC2 (by decide) 1 [("name", PyVal.str "A2")]
      (by decide) (by decide) s1C2 [((2 : Int), "dup sku")] rfl).1 (by decide) (by decide),
   (C2_partial_success s0C2 metaC2 itemsC2 (by decide) 2 [("name", PyVal.str "B2")]
      (by decide) (by decide) s1C2 [((2 : Int), "dup sku")] rfl).2 "dup sku" (by decide)⟩

/-! ## C1: an omitted item is committed when the response has no successes -/

def s0C1 : SyncState where
  raws := fun i =>
    if i = 42 then some [("name", PyVal.str "A"), ("id", PyVal.int 42)]
    else if i = 7 then some [("name", PyVal.str "B"), ("id", PyVal.int 7)]
    else Option.none
  edits := fun i =>
    if i = 42 then some [("name", PyVal.str "X")]
    else if i = 7 then some [("name", PyVal.str "Y")]
    else Option.none

def metaC1 : List (Int × Edits) :=
  [(42, [("name", PyVal.str "X")]), (7, [("name", PyVal.str "Y")])]

def itemsC1 : List RespEntry := [RespEntry.err 7 "boom"]

def s1C1 : SyncState where
  raws := upd s0C1.raws 42 (some [("name", PyVal.str "X"), ("id", PyVal.int 42)])
  edits := upd s0C1.edits 42 Option.none

/-- C1 fails on the code: in a dispatched batch of items 42 and 7, a
response consisting solely of an error entry for item 7 — hence containing
no entry at all for item 42, and no success entries — makes `flush_batch`
COMMIT item 42: its Raw Snapshot is overwritten with the merged edits and
its Local Edit Store entry is deleted, although the remote never confirmed
it.  The guard `if success_ids and wc_id not in success_ids` is skipped
when `success_ids` is empty.  (With at least one success entry present the
omitted item is skipped, as claimed.) -/
theorem C1_unconfirmed_item_committed :
    flush_batch s0C1 metaC1 itemsC1 = some (s1C1, [((7 : Int), "boom")]) ∧
    ¬ (42 : Int) ∈ succIds itemsC1 ∧ ¬ (42 : Int) ∈ errIds itemsC1 ∧
    itemsC1 ≠ [] ∧
    s0C1.edits 42 = some [("name", PyVal.str "X")] ∧
    s1C1.edits 42 = Option.none ∧
    s1C1.raws 42 ≠ s0C1.raws 42 :=
  ⟨rfl, by decide, by decide, by decide, rfl, rfl, by decide⟩

/-! ## Backup rotation (claim C8) -/

theorem updFile_self (f : String → Option String) (n : String) (v : Option String) :
    updFile f n v n = v := by
  unfold updFile
  rw [if_pos rfl]

theorem updFile_ne (f : String → Option String) (n : String) (v : Option String)
    {m : String} (h : m ≠ n) : updFile f n v m = f m := by
  unfold updFile
  rw [if_neg h]

theorem str_data_inj {a b : String} (h : a.data = b.data) : a = b := by
  cases a
  cases b
  exact congrArg String.mk h

theorem mkBackupName_inj {label t1 t2 : String}
    (h : mkBackupName label t1 = mkBackupName label t2) : t1 = t2 := by
  unfold mkBackupName at h
  have hd := congrArg String.data h
  rw [data_append, data_append, data_append, data_append, data_append, data_append] at hd
  exact str_data_inj (List.append_cancel_left (List.append_cancel_right hd))

theorem cb_db (label t : String) (s : BFS) (c : String) :
    ((create_backup label t (setDb s c)).1).db = some c := rfl

theorem cb_ret (label t : String) (s : BFS) (c : String) :
    (create_backup label t (setDb s c)).2 = some (mkBackupName label t) := rfl

theorem cb_latest (label t : String) (s : BFS) (c : String) :
    ((create_backup label t (setDb s c)).1).files latestBakName = some c := by
  unfold create_backup setDb
  dsimp only
  cases h : updFile s.files (mkBackupName label t) (some c) latestBakName with
  | some x =>
    dsimp only
    rw [updFile_self]
  | none =>
    dsimp only
    rw [updFile_self]

theorem cb_prev (label t : String) (s : BFS) (c x : String)
    (hT1 : mkBackupName label t ≠ latestBakName)
    (hlat : s.files latestBakName = some x) :
    ((create_backup label t (setDb s c)).1).files prevBakName = some x := by
  unfold create_backup setDb
  dsimp only
  have hf1 : updFile s.files (mkBackupName label t) (some c) latestBakName = some x := by
    rw [updFile_ne _ _ _ (Ne.symm hT1), hlat]
  rw [hf1]
  dsimp only
  rw [updFile_ne _ _ _ (by decide : prevBakName ≠ latestBakName),
    updFile_ne _ _ _ (by decide : prevBakName ≠ latestBakName), updFile_self]

theorem cb_target (label t : String) (s : BFS) (c : String)
    (hT1 : mkBackupName label t ≠ latestBakName)
    (hT2 : mkBackupName label t ≠ prevBakName) :
    ((create_backup label t (setDb s c)).1).files (mkBackupName label t) = some c := by
  unfold create_backup setDb
  dsimp only
  cases h : updFile s.files (mkBackupName label t) (some c) latestBakName with
  | some x =>
    dsimp only
    rw [updFile_ne _ _ _ hT1, updFile_ne _ _ _ hT1, updFile_ne _ _ _ hT2, updFile_self]
  | none =>
    dsimp only
    rw [updFile_ne _ _ _ hT1, updFile_self]

theorem cb_other (label t : String) (s : BFS) (c : String) {n : String}
    (hn1 : n ≠ mkBackupName label t) (hn2 : n ≠ latestBakName) (hn3 : n ≠ prevBakName) :
    ((create_backup label t (setDb s c)).1).files n = s.files n := by
  unfold create_backup setDb
  dsimp only
  cases h : updFile s.files (mkBackupName label t) (some c) latestBakName with
  | some x =>
    dsimp only
    rw [updFile_ne _ _ _ hn2, updFile_ne _ _ _ hn2, updFile_ne _ _ _ hn3,
      updFile_ne _ _ _ hn1]
  | none =>
    dsimp only
    rw [updFile_ne _ _ _ hn2, updFile_ne _ _ _ hn1]

/-- C8: Three consecutive `create_backup` calls with distinct timestamps and
distinct live-store contents each create their own labeled backup file,
overwrite none of the earlier ones, return a backup path, and leave the
`latest` alias holding the third content and the `prev` alias the second;
every unrelated file is untouched.  (Distinct timestamps are a hypothesis
because the file name embeds the wall-clock second; alias collisions are
excluded by hypothesis since a timestamped name can never equal the fixed
alias names in practice.) -/
theorem C8_backup_rotation (s0 : BFS) (label t1 t2 t3 c1 c2 c3 : String)
    (ht12 : t1 ≠ t2) (ht13 : t1 ≠ t3) (ht23 : t2 ≠ t3)
    (ha1 : mkBackupName label t1 ≠ latestBakName)
    (hb1 : mkBackupName label t1 ≠ prevBakName)
    (ha2 : mkBackupName label t2 ≠ latestBakName)
    (hb2 : mkBackupName label t2 ≠ prevBakName)
    (ha3 : mkBackupName label t3 ≠ latestBakName)
    (hb3 : mkBackupName label t3 ≠ prevBakName) :
    let s1 := (create_backup label t1 (setDb s0 c1)).1
    let s2 := (create_backup label t2 (setDb s1 c2)).1
    let s3 := (create_backup label t3 (setDb s2 c3)).1
    s3.files latestBakName = some c3 ∧
    s3.files prevBakName = some c2 ∧
    s3.files (mkBackupName label t1) = some c1 ∧
    s3.files (mkBackupName label t2) = some c2 ∧
    s3.files (mkBackupName label t3) = some c3 ∧
    (create_backup label t1 (setDb s0 c1)).2 = some (mkBackupName label t1) ∧
    (create_backup label t2 (setDb s1 c2)).2 = some (mkBackupName label t2) ∧
    (create_backup label t3 (setDb s2 c3)).2 = some (mkBackupName label t3) ∧
    (∀ n, n ≠ mkBackupName label t1 → n ≠ mkBackupName label t2 →
       n ≠ mkBackupName label t3 → n ≠ latestBakName → n ≠ prevBakName →
       s3.files n = s0.files n) := by
  intro s1 s2 s3
  have hmk12 : mkBackupName label t1 ≠ mkBackupName label t2 :=
    fun hc => ht12 (mkBackupName_inj hc)
  have hmk13 : mkBackupName label t1 ≠ mkBackupName label t3 :=
    fun hc => ht13 (mkBackupName_inj hc)
  have hmk23 : mkBackupName label t2 ≠ mkBackupName label t3 :=
    fun hc => ht23 (mkBackupName_inj hc)
  have h2latest : s2.files latestBakName = some c2 := cb_latest label t2 s1 c2
  have h1t1 : s1.files (mkBackupName label t1) = some c1 := cb_target label t1 s0 c1 ha1 hb1
  have h2t1 : s2.files (mkBackupName label t1) = some c1 :=
    (cb_other label t2 s1 c2 hmk12 ha1 hb1).trans h1t1
  have h2t2 : s2.files (mkBackupName label t2) = some c2 := cb_target label t2 s1 c2 ha2 hb2
  refine ⟨cb_latest label t3 s2 c3, cb_prev label t3 s2 c3 c2 ha3 h2latest, ?_, ?_,
    cb_target label t3 s2 c3 ha3 hb3, cb_ret label t1 s0 c1, cb_ret label t2 s1 c2,
    cb_ret label t3 s2 c3, ?_⟩
  · exact (cb_other label t3 s2 c3 hmk13 ha1 hb1).trans h2t1
  · exact (cb_other label t3 s2 c3 hmk23 ha2 hb2).trans h2t2
  · intro n hn1 hn2 hn3 hnl hnp
    exact ((cb_other label t3 s2 c3 hn3 hnl hnp).trans
      ((cb_other label t2 s1 c2 hn2 hnl hnp).trans
        (cb_other label t1 s0 c1 hn1 hnl hnp)))

def bfsC8 : BFS where
  db := Option.none
  files := fun _ => Option.none

theorem C8_witness :
    (("t1" : String) ≠ "t2" ∧ ("t1" : String) ≠ "t3" ∧ ("t2" : String) ≠ "t3" ∧
     mkBackupName "manual" "t1" ≠ latestBakName ∧ mkBackupName "manual" "t1" ≠ prevBakName ∧
     mkBackupName "manual" "t2" ≠ latestBakName ∧ mkBackupName "manual" "t2" ≠ prevBakName ∧
     mkBackupName "manual" "t3" ≠ latestBakName ∧ mkBackupName "manual" "t3" ≠ prevBakName) ∧
    ((create_backup "manual" "t3" (setDb (create_backup "manual" "t2" (setDb
        (create_backup "manual" "t1" (setDb bfsC8 "c1")).1 "c2")).1 "c3")).1).files
      latestBakName = some "c3" ∧
    ((create_backup "manual" "t3" (setDb (create_backup "manual" "t2" (setDb
        (create_backup "manual" "t1" (setDb bfsC8 "c1")).1 "c2")).1 "c3")).1).files
      prevBakName = some "c2" :=
  ⟨⟨by decide, by decide, by decide, by decide, by decide, by decide, by decide,
    by decide, by decide⟩,
   (C8_backup_rotation bfsC8 "manual" "t1" "t2" "t3" "c1" "c2" "c3" (by decide) (by decide)
     (by decide) (by decide) (by decide) (by decide) (by decide) (by decide) (by decide)).1,
   (C8_backup_rotation bfsC8 "manual" "t1" "t2" "t3" "c1" "c2" "c3" (by decide) (by decide)
     (by decide) (by decide) (by decide) (by decide) (by decide) (by decide) (by decide)).2.1⟩

/-! ## C10: unparseable date text is kept, but stripped -/

/-- C10 as frozen fails on the code at whitespace-bearing inputs:
`_normalize_date(" abc")` returns `"abc"`, not the input unchanged, and the
non-empty whitespace-only string `" "` returns the absent sentinel. -/
theorem C10_counterexample :
    normalize_date (PyVal.str " abc") = PyVal.str "abc" ∧
    PyVal.str "abc" ≠ PyVal.str " abc" ∧
    normalize_date (PyVal.str " ") = PyVal.none := by
  decide

/-- C10 (amended): for every string whose *trimmed* form is non-empty,
contains no `'T'` and is not a parseable ISO date, `_normalize_date`
returns the trimmed input string — not the absent sentinel; so for date
fields a parse failure keeps the text instead of mapping to absent. -/
theorem C10_unparseable_date_kept (s : String)
    (hne : pyStrip s ≠ "")
    (hnt : ¬ 'T' ∈ (pyStrip s).data)
    (hnv : isValidIsoDateChars (pyStrip s).data = false) :
    normalize_date (PyVal.str s) = PyVal.str (pyStrip s) := by
  have hempty : isEmptyVal (PyVal.str s) = false := by
    simp only [isEmptyVal]
    rw [Ne, pyStrip_eq_empty_iff] at hne
    simpa using hne
  unfold normalize_date
  rw [hempty, if_neg Bool.false_ne_true]
  show normDateStr (pyStrip (pyStr (PyVal.str s))) = PyVal.str (pyStrip s)
  unfold normDateStr
  have hps : pyStr (PyVal.str s) = s := rfl
  rw [hps, if_neg hne, if_neg hnt, if_neg (by rw [hnv]; exact Bool.false_ne_true)]

theorem C10_witness :
    (pyStrip " abc" ≠ "" ∧ ¬ 'T' ∈ (pyStrip " abc").data ∧
     isValidIsoDateChars (pyStrip " abc").data = false) ∧
    normalize_date (PyVal.str " abc") = PyVal.str (pyStrip " abc") :=
  ⟨⟨by decide, by decide, by decide⟩,
   C10_unparseable_date_kept " abc" (by decide) (by decide) (by decide)⟩

end WcSync
